import Mathlib

/-!
Verification of the REST Lens IDE core against its specification.

The development shallowly embeds the TypeScript sources of the repository:
text is modelled as `List Char`, JavaScript string primitives (`indexOf`,
`split`, `slice`, `toLowerCase`, the regular expressions actually used) are
translated to executable Lean functions, and the asynchronous orchestration of
the language server is modelled as a small-step event system whose suspension
points are exactly the `await`ed network calls of the source.
-/

set_option autoImplicit false

namespace RestLens

/-- Document text, modelled as a list of characters (JS strings are indexed
by code units; all inputs considered here are ASCII, where the two views
coincide). -/
abbrev Chars := List Char

/-- Convert a Lean string literal to the character-list model. -/
def chars (s : String) : Chars := s.data

/-- `prefixOf pat s` is true when `pat` is a literal prefix of `s`. -/
def prefixOf : Chars → Chars → Bool
  | [], _ => true
  | _ :: _, [] => false
  | a :: as, b :: bs => a == b && prefixOf as bs

/-- Auxiliary scan for `indexOfC`: first index `≥ i` (in the original string)
at which `pat` occurs, where the current suffix is `s`. -/
def indexOfAux (pat : Chars) : Chars → Nat → Option Nat
  | [], i => if prefixOf pat [] then some i else none
  | s@(_ :: rest), i => if prefixOf pat s then some i else indexOfAux pat rest (i + 1)

/-- JS `String.prototype.indexOf`: index of the first occurrence of `pat` in
`s`, or `none` for `-1`. -/
def indexOfC (s pat : Chars) : Option Nat := indexOfAux pat s 0

/-- JS `String.prototype.includes`. -/
def containsC (s pat : Chars) : Bool := (indexOfC s pat).isSome

/-- JS `String.prototype.slice(a, b)` for `0 ≤ a ≤ b`. -/
def slice (s : Chars) (a b : Nat) : Chars := (s.drop a).take (b - a)

/-- JS `String.prototype.split("\n")`; always returns at least one piece. -/
def splitNl : Chars → List Chars
  | [] => [[]]
  | c :: rest =>
    if c = '\n' then [] :: splitNl rest
    else
      match splitNl rest with
      | [] => [[c]]
      | l :: ls => (c :: l) :: ls

/-- JS `String.prototype.split(sep)` for a one-character separator. -/
def splitOnChar (sep : Char) : Chars → List Chars
  | [] => [[]]
  | c :: rest =>
    if c = sep then [] :: splitOnChar sep rest
    else
      match splitOnChar sep rest with
      | [] => [[c]]
      | l :: ls => (c :: l) :: ls

/-- The ASCII part of the JS regex class `\s` (space, tab, newline, carriage
return, vertical tab, form feed). -/
def isWsC (c : Char) : Bool :=
  c == ' ' || c == '\t' || c == '\n' || c == '\r' || c == '\x0B' || c == '\x0C'

/-- The JS regex class `[a-zA-Z]`. -/
def isAsciiAlpha (c : Char) : Bool :=
  ('a' ≤ c && c ≤ 'z') || ('A' ≤ c && c ≤ 'Z')

/-- The JS regex class `[a-zA-Z0-9]`. -/
def isAsciiAlnum (c : Char) : Bool :=
  isAsciiAlpha c || ('0' ≤ c && c ≤ '9')

/-- JS `String.prototype.toLowerCase` on the ASCII range. -/
def toLowerC (s : Chars) : Chars := s.map Char.toLower

/-- JS `String.prototype.endsWith`. -/
def endsWithC (s pat : Chars) : Bool := prefixOf pat.reverse s.reverse

/-- JS truthiness of an optional string: `undefined` and `""` are falsy. -/
def jsStr : Option Chars → Option Chars
  | some s => if s = [] then none else some s
  | none => none

/-- JS `a || b` for an optional string `a` and default `b` (empty string is
falsy). -/
def jsOrStr (a : Option Chars) (b : Chars) : Chars :=
  match a with
  | some s => if s = [] then b else s
  | none => b

-- =========================================================================
-- Positions and ranges (LSP `Range`; the source's `end` field is `stop`)
-- =========================================================================

/-- An LSP position. -/
structure Pos where
  line : Nat
  character : Nat
deriving DecidableEq, Repr

/-- An LSP range; the source field `end` is called `stop` (`end` is a Lean
keyword). -/
structure Range where
  start : Pos
  stop : Pos
deriving DecidableEq, Repr

/-- The loop of `indexToRange` (diagnostics.ts): walk `lines`, tracking the
running offset `cur`; `line`/`character` are set only when the loop breaks,
and keep their initial value `0` otherwise. -/
def indexToRangeGo (index : Nat) : List Chars → Nat → Nat → Pos
  | [], _, _ => ⟨0, 0⟩
  | l :: ls, lineNo, cur =>
    if cur + (l.length + 1) > index then ⟨lineNo, index - cur⟩
    else indexToRangeGo index ls (lineNo + 1) (cur + (l.length + 1))

/-- `indexToRange` from diagnostics.ts: convert a character index and a match
length to a `Range`.  The source also receives `content`, which it never
reads; `lines` is always `content.split("\n")` at every call site. -/
def indexToRange (index length : Nat) (lines : List Chars) : Range :=
  let p := indexToRangeGo index lines 0 0
  ⟨p, ⟨p.line, p.character + length⟩⟩

-- =========================================================================
-- Violation data model (shared/src types.ts)
-- =========================================================================

/-- The `ViolationKeyType` enum. -/
inductive ViolationKeyType where
  | operation_id
  | path
  | schema_path
  | http_code
  | tag
  | info
  | system
deriving DecidableEq, Repr

/-- `ViolationKey`: the discriminating tag plus the optional locator fields. -/
structure ViolationKey where
  violation_key_type : ViolationKeyType
  operation_id : Option Chars := none
  path : Option Chars := none
  schema_path : Option Chars := none
  http_code : Option Chars := none
  tag : Option Chars := none
deriving DecidableEq, Repr

/-- Wire severity values. -/
inductive Severity where
  | info
  | warning
  | error
deriving DecidableEq, Repr

/-- A single violation. -/
structure Violation where
  rule_id : Nat
  message : Chars
  severity : Option Severity := none
  rule_slug : Option Chars := none
deriving DecidableEq, Repr

/-- A violation group: one key, several violations. -/
structure ViolationKV where
  key : ViolationKey
  value : List Violation
deriving DecidableEq, Repr

-- =========================================================================
-- RangeResolver (lsp-server diagnostics.ts): regex scanners
-- =========================================================================

/-- Attempt of the multiline regex `^paths:\s*$` at a line-start position:
returns the matched text (the literal `paths:` plus the matched trailing
whitespace).  `\s*` greedily eats whitespace (including newlines) and then
backtracks until `$` holds, i.e. until the position is the end of the string
or sits right before a `\n`. -/
def pathsMatchAt (s : Chars) : Option Chars :=
  if prefixOf (chars "paths:") s then
    let after := s.drop 6
    let w := after.takeWhile isWsC
    if w.length = after.length then some (chars "paths:" ++ w)
    else
      match (w.enum.filter (fun p => p.2 == '\n')).getLast? with
      | some (k, _) => some (chars "paths:" ++ w.take k)
      | none => none
  else none

/-- Scan of `^paths:\s*$` (multiline) over the positions after each newline. -/
def pathsScanLines : Chars → Option Chars
  | [] => none
  | c :: rest =>
    if c = '\n' then
      match pathsMatchAt rest with
      | some m => some m
      | none => pathsScanLines rest
    else pathsScanLines rest

/-- First match of `^paths:\s*$` (multiline) in the document, as matched
text. -/
def yamlPathsMatched (s : Chars) : Option Chars :=
  match pathsMatchAt s with
  | some m => some m
  | none => pathsScanLines s

/-- Does the regex `"paths"\s*:\s*\{` match at the head of `s`?  The
required `:` and `{` are not whitespace, so only the maximal whitespace runs
can be consumed. -/
def jsonPathsAt (s : Chars) : Bool :=
  if prefixOf (chars "\"paths\"") s then
    match (s.drop 7).dropWhile isWsC with
    | ':' :: r =>
      match r.dropWhile isWsC with
      | '{' :: _ => true
      | _ => false
    | _ => false
  else false

/-- Does `"paths"\s*:\s*\{` match anywhere in `s`? -/
def jsonPathsTest : Chars → Bool
  | [] => false
  | s@(_ :: rest) => jsonPathsAt s || jsonPathsTest rest

/-- Does the regex `\n[a-zA-Z][a-zA-Z0-9]*:` match at the head of `s`?  The
`:` is not alphanumeric, so it must follow the maximal alphanumeric run. -/
def nextSecAt : Chars → Bool
  | '\n' :: c :: rest =>
    isAsciiAlpha c && ((rest.dropWhile isAsciiAlnum).head? == some ':')
  | _ => false

/-- Index of the first match of `\n[a-zA-Z][a-zA-Z0-9]*:` in `s`. -/
def nextSectionIdxAux : Chars → Nat → Option Nat
  | [], _ => none
  | s@(_ :: rest), j => if nextSecAt s then some j else nextSectionIdxAux rest (j + 1)

/-- Index of the first match of `\n[a-zA-Z][a-zA-Z0-9]*:` in `s`. -/
def nextSectionIdx (s : Chars) : Option Nat := nextSectionIdxAux s 0

/-- `findPathRange`, part 1: the boundaries `(pathsIndex, pathsEndIndex)` of
the top-level `paths` section.  Mirrors the source exactly, including the
`content.indexOf(pathsMatch[0])` re-lookup of the matched text and the
`nextSectionMatch.index || afterPaths.length` fallback (`||` treats a zero
index as absent). -/
def pathsSectionBounds (content : Chars) : Option (Nat × Nat) :=
  let pathsEndOf : Nat → Nat := fun pi =>
    let afterPaths := content.drop pi
    match nextSectionIdx afterPaths with
    | some j => pi + (if j = 0 then afterPaths.length else j)
    | none => content.length
  match yamlPathsMatched content with
  | some m0 =>
    match indexOfC content m0 with
    | some pi => some (pi, pathsEndOf pi)
    | none => none
  | none =>
    if jsonPathsTest content then
      match indexOfC content (chars "\"paths\"") with
      | some pi => some (pi, pathsEndOf pi)
      | none => none
    else none

/-- The JS regex class `[^:\s]` used for path characters. -/
def isPathSegChar (c : Char) : Bool := !(c == ':') && !(isWsC c)

/-- Attempt of the regex `\n\s+(\/[^:\s]*_[^:\s]*):` at the head of `s`:
returns `(matched[0], matched[1].length)`.  `\s+` must be the maximal
whitespace run (the following `/` is not whitespace) and the group must be
the maximal `[^:\s]` run after the `/` (the following `:` is excluded from
the class), which must contain an underscore. -/
def underscoreMatchAt : Chars → Option (Chars × Nat)
  | [] => none
  | c :: rest =>
    if c = '\n' then
      let w := rest.takeWhile isWsC
      if w.length = 0 then none
      else
        match rest.drop w.length with
        | [] => none
        | d :: r =>
          if d = '/' then
            let seg := r.takeWhile isPathSegChar
            if seg.contains '_' then
              if (r.drop seg.length).head? = some ':' then
                some ('\n' :: (w ++ '/' :: (seg ++ [':'])), seg.length + 1)
              else none
            else none
          else none
    else none

/-- Leftmost match of `\n\s+(\/[^:\s]*_[^:\s]*):` in `s`. -/
def underscoreScan : Chars → Option (Chars × Nat)
  | [] => none
  | s@(_ :: rest) =>
    match underscoreMatchAt s with
    | some m => some m
    | none => underscoreScan rest

/-- The source computes the match's position by `indexOf` of the matched
text (`pathsSection.indexOf(underscorePathMatch[0])`), so re-look it up. -/
def underscoreIdx (sect : Chars) : Option (Nat × Nat) :=
  match underscoreScan sect with
  | some (m0, m1len) =>
    match indexOfC sect m0 with
    | some ri => some (ri, m1len)
    | none => none
  | none => none

/-- Attempt, at the head of `s`, of the segment regexes
`\n\s+"?/seg[/":]` (`allowQuote = true`) and `\n\s+/seg[/":]`
(`allowQuote = false`); returns the length of `matched[0]`.  `\s+` must be
the maximal whitespace run; an optional quote cannot backtrack usefully
because `"` is not `/`. -/
def segMatchAt (seg : Chars) (allowQuote : Bool) : Chars → Option Nat
  | '\n' :: rest =>
    let w := rest.takeWhile isWsC
    if w.length = 0 then none
    else
      let after := rest.drop w.length
      let qlen : Nat :=
        if allowQuote then
          match after with
          | '"' :: _ => 1
          | _ => 0
        else 0
      match after.drop qlen with
      | '/' :: r =>
        if prefixOf seg r then
          match (r.drop seg.length).head? with
          | some c =>
            if c = '/' || c = '"' || c = ':' then
              some (1 + w.length + qlen + 1 + seg.length + 1)
            else none
          | none => none
        else none
      | _ => none
  | _ => none

/-- Leftmost match of a segment regex: returns `(match.index, matched[0].length)`. -/
def segMatchScanAux (seg : Chars) (allowQuote : Bool) : Chars → Nat → Option (Nat × Nat)
  | [], _ => none
  | s@(_ :: rest), j =>
    match segMatchAt seg allowQuote s with
    | some len => some (j, len)
    | none => segMatchScanAux seg allowQuote rest (j + 1)

/-- Leftmost match of a segment regex over `s`. -/
def segMatchScan (seg : Chars) (allowQuote : Bool) (s : Chars) : Option (Nat × Nat) :=
  segMatchScanAux seg allowQuote s 0

/-- First pattern (in list order) with an occurrence in `s`; returns the
pattern and its first index, mirroring the `for (const pattern of patterns)`
loops of the source. -/
def firstPatternHit (s : Chars) : List Chars → Option (Chars × Nat)
  | [] => none
  | p :: ps =>
    match indexOfC s p with
    | some i => some (p, i)
    | none => firstPatternHit s ps

/-- Does the (optional) violation message mention `underscore`
(case-insensitively)? -/
def msgUnderscore (message : Option Chars) : Bool :=
  match message with
  | some m => containsC (toLowerC m) (chars "underscore")
  | none => false

-- =========================================================================
-- RangeResolver: the per-variant finders.  Each finder is split into an
-- index-producing core (`...Idx`, returning the character index and match
-- length handed to `indexToRange`) and the range wrapper; the source computes
-- `indexToRange(index, length, content, lines)` at exactly these points.
-- =========================================================================

/-- The underscore-heuristic branch of `findPathRange`: active only when the
message mentions underscores; the range starts one past the matched newline
(`absoluteIndex + 1`) with length `matched[1].length + 1`. -/
def underscoreHitIdx (ps : Nat) (sect : Chars) (message : Option Chars) :
    Option (Nat × Nat) :=
  if msgUnderscore message then
    match underscoreIdx sect with
    | some (ri, m1len) => some (ps + ri + 1, m1len + 1)
    | none => none
  else none

/-- The exact-key pattern list of `findPathRange`: 2-space and 4-space
indented YAML keys, then the quoted JSON/YAML spellings. -/
def exactPats (p : Chars) : List Chars :=
  [chars "\n  " ++ (p ++ [':']),
   chars "\n    " ++ (p ++ [':']),
   '"' :: (p ++ ['"', ':']),
   '\'' :: (p ++ ['\'', ':'])]

/-- The indentation-qualified exact-key patterns of `findPathRange`, tried in
order; a leading-newline pattern is adjusted by one position and one length
unit. -/
def exactPatHit (ps : Nat) (sect : Chars) (p : Chars) : Option (Nat × Nat) :=
  match firstPatternHit sect (exactPats p) with
  | some (pat, ri) =>
    if pat.head? = some '\n' then some (ps + ri + 1, pat.length - 1)
    else some (ps + ri, pat.length)
  | none => none

/-- The per-segment fallback of `findPathRange`: parameter segments (wrapped
in braces) are skipped; otherwise the quoted-or-not regex is tried, then the
unquoted one; `match.index + 1` and `matched[0].length - 1` feed the range. -/
def segHitIdx (ps : Nat) (sect : Chars) (seg : Chars) : Option (Nat × Nat) :=
  if seg.head? = some '{' then none
  else
    match segMatchScan seg true sect with
    | some (j, len) => some (ps + j + 1, len - 1)
    | none =>
      match segMatchScan seg false sect with
      | some (j, len) => some (ps + j + 1, len - 1)
      | none => none

/-- `findPathRange` (diagnostics.ts): search restricted to the `paths`
section; exact indentation-qualified keys first, then the underscore
heuristic when the message mentions underscores, then the non-parameter
segment fallback, then the trailing underscore heuristic. -/
def findPathRangeIdx (path : Option Chars) (content : Chars) (message : Option Chars) :
    Option (Nat × Nat) :=
  match pathsSectionBounds content with
  | none => none
  | some (ps, pe) =>
    let sect := slice content ps pe
    match jsStr path with
    | some p =>
      match exactPatHit ps sect p with
      | some h => some h
      | none =>
        match underscoreHitIdx ps sect message with
        | some h => some h
        | none =>
          let segments := (splitOnChar '/' p).filter (fun s => !s.isEmpty)
          match segments.findSome? (segHitIdx ps sect) with
          | some h => some h
          | none => underscoreHitIdx ps sect message
    | none => underscoreHitIdx ps sect message

/-- The `operationId` pattern list of `findOperationIdRange`: unquoted,
double-quoted, single-quoted, then the JSON spelling. -/
def opIdPats (id : Chars) : List Chars :=
  [chars "operationId: " ++ id,
   chars "operationId: \"" ++ (id ++ ['"']),
   (chars "operationId: " ++ ['\'']) ++ (id ++ ['\'']),
   chars "\"operationId\": \"" ++ (id ++ ['"'])]

/-- `findOperationIdRange` (diagnostics.ts): literal `operationId` spellings
in pattern order, falling back to the `path` strategy (called without a
message). -/
def findOperationIdRangeIdx (operationId path : Option Chars) (content : Chars) :
    Option (Nat × Nat) :=
  match jsStr operationId with
  | some id =>
    match firstPatternHit content (opIdPats id) with
    | some (pat, i) => some (i, pat.length)
    | none => findPathRangeIdx path content none
  | none => findPathRangeIdx path content none

/-- Attempt of the regex `Schema property '([^']+)'` at the head of `s`:
the captured property name. -/
def propMatchAt (s : Chars) : Option Chars :=
  if prefixOf (chars "Schema property " ++ ['\'']) s then
    let rest := s.drop 17
    let t := rest.takeWhile (fun c => !(c == '\''))
    if t.length ≠ 0 && (rest.drop t.length).head? == some '\'' then some t else none
  else none

/-- Leftmost match of `Schema property '([^']+)'` in `s`. -/
def propScan : Chars → Option Chars
  | [] => none
  | s@(_ :: rest) =>
    match propMatchAt s with
    | some t => some t
    | none => propScan rest

/-- Does the regex `\n  [A-Z][a-zA-Z0-9]*:` match at the head of `s`? -/
def nextSchemaAt : Chars → Bool
  | '\n' :: ' ' :: ' ' :: c :: rest =>
    ('A' ≤ c && c ≤ 'Z') && ((rest.dropWhile isAsciiAlnum).head? == some ':')
  | _ => false

/-- Index of the first match of `\n  [A-Z][a-zA-Z0-9]*:` in `s`. -/
def nextSchemaIdxAux : Chars → Nat → Option Nat
  | [], _ => none
  | s@(_ :: rest), j => if nextSchemaAt s then some j else nextSchemaIdxAux rest (j + 1)

/-- Index of the first match of `\n  [A-Z][a-zA-Z0-9]*:` in `s`. -/
def nextSchemaIdx (s : Chars) : Option Nat := nextSchemaIdxAux s 0

/-- `findSchemaRange` (diagnostics.ts): schema name from the last pointer
segment; when the message names a property, search for it inside the span
up to the next sibling schema key, else return the schema key itself. -/
def findSchemaRangeIdx (schemaPath : Option Chars) (content : Chars) (message : Option Chars) :
    Option (Nat × Nat) :=
  match jsStr schemaPath with
  | none => none
  | some sp =>
    let propertyName : Option Chars :=
      match message with
      | some m => propScan m
      | none => none
    let stripped := if prefixOf (chars "#/") sp then sp.drop 2 else sp
    let parts := splitOnChar '/' stripped
    let schemaName :=
      match parts.getLast? with
      | some last => if last = [] then sp else last
      | none => sp
    let schemaPatterns : List Chars :=
      [schemaName ++ [':'], '"' :: (schemaName ++ ['"', ':'])]
    let schemaStart : Option Nat := (firstPatternHit content schemaPatterns).map (·.2)
    let fallback : Option (Nat × Nat) :=
      match schemaStart with
      | some ss =>
        match schemaPatterns.find? (fun pat => indexOfC content pat == some ss) with
        | some pat => some (ss, pat.length)
        | none => none
      | none => none
    match propertyName, schemaStart with
    | some prop, some ss =>
      let afterSchema := content.drop ss
      let schemaEnd :=
        match nextSchemaIdx afterSchema with
        | some j => ss + (if j = 0 then afterSchema.length else j)
        | none => content.length
      let schemaSection := slice content ss schemaEnd
      let propPats : List Chars := [prop ++ [':'], '"' :: (prop ++ ['"', ':'])]
      match firstPatternHit schemaSection propPats with
      | some (pat, pi) => some (ss + pi, pat.length)
      | none => fallback
    | _, _ => fallback

/-- `findHttpCodeRange` (diagnostics.ts). -/
def findHttpCodeRangeIdx (http_code path operationId : Option Chars) (content : Chars) :
    Option (Nat × Nat) :=
  match jsStr http_code with
  | none => none
  | some code =>
    let pats : List Chars :=
      [code ++ [':'], '"' :: (code ++ ['"', ':']), '\'' :: (code ++ ['\'', ':'])]
    match firstPatternHit content pats with
    | some (pat, i) => some (i, pat.length)
    | none => findOperationIdRangeIdx operationId path content

/-- `findTagRange` (diagnostics.ts). -/
def findTagRangeIdx (tag : Option Chars) (content : Chars) : Option (Nat × Nat) :=
  match jsStr tag with
  | none => none
  | some t =>
    let pats : List Chars :=
      [chars "- " ++ t, chars "- \"" ++ (t ++ ['"']),
       chars "name: " ++ t, chars "name: \"" ++ (t ++ ['"'])]
    match firstPatternHit content pats with
    | some (pat, i) => some (i, pat.length)
    | none => none

/-- `findInfoRange` (diagnostics.ts). -/
def findInfoRangeIdx (content : Chars) : Option (Nat × Nat) :=
  match indexOfC content (chars "info:") with
  | some i => some (i, 5)
  | none => none

/-- Dispatch of `findViolationRange` on the key variant, producing the index
and length handed to `indexToRange` (or `none` when the variant's search
finds nothing — including always for `system` keys). -/
def violationIdx (key : ViolationKey) (content : Chars) (message : Option Chars) :
    Option (Nat × Nat) :=
  match key.violation_key_type with
  | .operation_id => findOperationIdRangeIdx key.operation_id key.path content
  | .path => findPathRangeIdx key.path content message
  | .schema_path => findSchemaRangeIdx key.schema_path content message
  | .http_code => findHttpCodeRangeIdx key.http_code key.path key.operation_id content
  | .tag => findTagRangeIdx key.tag content
  | .info => findInfoRangeIdx content
  | .system => none

/-- `findViolationRange` (diagnostics.ts): total — every failure path (and
the `try`/`catch`) lands on the default first-line range
`{start: {0,0}, end: {0, lines[0]?.length || 0}}`. -/
def findViolationRange (key : ViolationKey) (content : Chars) (message : Option Chars) :
    Range :=
  let lines := splitNl content
  let defaultRange : Range :=
    ⟨⟨0, 0⟩, ⟨0, match lines.head? with | some l => l.length | none => 0⟩⟩
  match violationIdx key content message with
  | some (i, len) => indexToRange i len lines
  | none => defaultRange

-- =========================================================================
-- OpenAPI detection (diagnostics.ts `isOpenAPIDocument`)
-- =========================================================================

/-- The fields of an LSP `TextDocument` read by the server. -/
structure TextDocumentModel where
  uri : Chars
  languageId : Chars
  text : Chars
deriving DecidableEq, Repr

/-- Attempt of the multiline regex `^openapi:\s*["']?3\.` at a line-start
position.  `"`, `'` and `3` are not whitespace, so `\s*` consumes exactly the
maximal whitespace run (which may span newlines). -/
def oasYamlAt (s : Chars) : Bool :=
  if prefixOf (chars "openapi:") s then
    match (s.drop 8).dropWhile isWsC with
    | '"' :: '3' :: '.' :: _ => true
    | '\'' :: '3' :: '.' :: _ => true
    | '3' :: '.' :: _ => true
    | _ => false
  else false

/-- Scan of `^openapi:\s*["']?3\.` over the positions after each newline. -/
def oasYamlScanAux : Chars → Bool
  | [] => false
  | c :: rest => (c = '\n' && oasYamlAt rest) || oasYamlScanAux rest

/-- The test of `/^openapi:\s*["']?3\./m` over the whole document. -/
def oasYamlTest (s : Chars) : Bool := oasYamlAt s || oasYamlScanAux s

/-- Attempt of the regex `"openapi"\s*:\s*"3\.` at the head of `s`. -/
def oasJsonAt (s : Chars) : Bool :=
  if prefixOf (chars "\"openapi\"") s then
    match (s.drop 9).dropWhile isWsC with
    | ':' :: r =>
      match r.dropWhile isWsC with
      | '"' :: '3' :: '.' :: _ => true
      | _ => false
    | _ => false
  else false

/-- The test of `/"openapi"\s*:\s*"3\./` over the whole document. -/
def oasJsonTest : Chars → Bool
  | [] => false
  | s@(_ :: rest) => oasJsonAt s || oasJsonTest rest

/-- `isOpenAPIDocument` (diagnostics.ts): language id or file extension must
be YAML/JSON, and the text must match one of the OpenAPI 3.x signature
patterns. -/
def isOpenAPIDocument (doc : TextDocumentModel) : Bool :=
  let text := doc.text
  let languageId := doc.languageId
  let signature := oasYamlTest text || oasJsonTest text
  if !(languageId == chars "yaml" || languageId == chars "json"
        || languageId == chars "jsonc") then
    let uri := toLowerC doc.uri
    if !(endsWithC uri (chars ".yaml") || endsWithC uri (chars ".yml")
          || endsWithC uri (chars ".json")) then
      false
    else signature
  else signature

-- =========================================================================
-- Diagnostics conversion (diagnostics.ts `violationsToDiagnostics`)
-- =========================================================================

/-- The LSP diagnostic `code` field: `rule_slug || rule_id` (a string when
the slug is present and non-empty, else the numeric rule id). -/
inductive CodeVal where
  | slug (s : Chars)
  | num (n : Nat)
deriving DecidableEq, Repr

/-- `mapSeverity` (diagnostics.ts): LSP severities Error = 1, Warning = 2,
Information = 3; absent severities default to Warning. -/
def mapSeverity : Option Severity → Nat
  | some .error => 1
  | some .warning => 2
  | some .info => 3
  | none => 2

/-- An LSP diagnostic as built by the server; the `code` field is optional
in LSP and is omitted by the server's informational prompts. -/
structure DiagnosticM where
  range : Range
  severity : Nat
  message : Chars
  source : Chars
  code : Option CodeVal := none
deriving DecidableEq, Repr

/-- The `code` computation `v.rule_slug || v.rule_id` (an empty slug is
falsy). -/
def codeOf (v : Violation) : CodeVal :=
  match v.rule_slug with
  | some s => if s = [] then .num v.rule_id else .slug s
  | none => .num v.rule_id

/-- `violationsToDiagnostics` (diagnostics.ts): one diagnostic per violation
message, with info-severity entries dropped unless `includeInfo`; the range
is resolved per message. -/
def violationsToDiagnostics (violations : List ViolationKV) (content : Chars)
    (includeInfo : Bool) : List DiagnosticM :=
  violations.flatMap fun vkv =>
    vkv.value.filterMap fun v =>
      if !includeInfo && v.severity == some .info then none
      else
        some ⟨findViolationRange vkv.key content (some v.message),
              mapSeverity v.severity, v.message, chars "REST Lens", some (codeOf v)⟩

-- =========================================================================
-- API client (lsp-server api-client.ts, `RestLensClient`)
-- =========================================================================

/-- A result that is either a value or a thrown error (`Except` with derived
decidable equality, for concrete evaluation). -/
inductive EResult (ε α : Type) where
  | ok (value : α)
  | error (err : ε)
deriving DecidableEq, Repr

/-- A parsed `{error, code}` error body. -/
structure ErrBody where
  error : Option Chars := none
  code : Option Chars := none
deriving DecidableEq, Repr

/-- The `evaluation` object of a violations response. -/
structure EvaluationM where
  status : Chars
  message : Option Chars := none
  category : Option Chars := none
deriving DecidableEq, Repr

/-- A violations response (`GET .../specifications?specId=...`). -/
structure ViolationsResponseM where
  evaluation : Option EvaluationM := none
  violations : Option (List ViolationKV) := none
deriving DecidableEq, Repr

/-- An upload response, reduced to the `specification.id` the client reads. -/
structure UploadRespM where
  specId : Chars
deriving DecidableEq, Repr

/-- The JSON body of an HTTP response, as far as the client parses it. -/
inductive BodyM where
  | errB (e : ErrBody)
  | violationsB (v : ViolationsResponseM)
  | uploadB (u : UploadRespM)
  | noneB
deriving DecidableEq, Repr

/-- An HTTP response: status plus parsed body. -/
structure ResponseM where
  status : Nat
  body : BodyM := .noneB
deriving DecidableEq, Repr

/-- `response.ok`: status in [200, 300). -/
def respOk (r : ResponseM) : Bool := 200 ≤ r.status && r.status < 300

/-- Outcome of one `fetch` call: a response, or a thrown network error. -/
inductive FetchOutcome where
  | ok (r : ResponseM)
  | netError (msg : Chars)
deriving DecidableEq, Repr

/-- Trace of `fetchWithRetry`: final result (a response, or the rethrown
`lastError`, `none` standing for the fallback `Error("Request failed")`),
the number of `fetch` calls made, and the backoff sleeps in order (ms). -/
structure FetchTrace where
  result : EResult (Option Chars) ResponseM
  attempts : Nat
  delays : List Nat
deriving DecidableEq, Repr

/-- The loop body of `fetchWithRetry`; `env n` is the outcome of the `n`-th
`fetch` call, `fuel` the remaining loop iterations (initially
`maxRetries`). 4xx responses and `ok` responses return immediately; other
statuses and network errors retry after `2^attempt * 1000` ms unless this
was the last attempt. -/
def fetchGo (env : Nat → FetchOutcome) (maxRetries : Nat) :
    Nat → Nat → Option Chars → FetchTrace
  | 0, attempt, lastError => ⟨.error lastError, attempt, []⟩
  | fuel + 1, attempt, lastError =>
    match env attempt with
    | .ok resp =>
      if 400 ≤ resp.status && resp.status < 500 then ⟨.ok resp, attempt + 1, []⟩
      else if respOk resp then ⟨.ok resp, attempt + 1, []⟩
      else if attempt < maxRetries - 1 then
        let rest := fetchGo env maxRetries fuel (attempt + 1) lastError
        ⟨rest.result, rest.attempts, 2 ^ attempt * 1000 :: rest.delays⟩
      else ⟨.ok resp, attempt + 1, []⟩
    | .netError e =>
      if attempt < maxRetries - 1 then
        let rest := fetchGo env maxRetries fuel (attempt + 1) (some e)
        ⟨rest.result, rest.attempts, 2 ^ attempt * 1000 :: rest.delays⟩
      else
        let rest := fetchGo env maxRetries fuel (attempt + 1) (some e)
        ⟨rest.result, rest.attempts, rest.delays⟩

/-- `fetchWithRetry` (api-client.ts), with its default `maxRetries = 3`. -/
def fetchWithRetry (env : Nat → FetchOutcome) (maxRetries : Nat := 3) : FetchTrace :=
  fetchGo env maxRetries maxRetries 0 none

/-- The error body as read by `handleErrorResponse`: `{error?, code?}`
fields of the parsed JSON (absent fields — or an unparseable body — give
the defaults). -/
def errBodyOf : BodyM → ErrBody
  | .errB e => e
  | _ => {}

/-- A thrown `RestLensAPIError {status, message, code}`. -/
structure ApiErrorM where
  status : Nat
  message : Chars
  code : Option Chars := none
deriving DecidableEq, Repr

/-- `handleErrorResponse` (api-client.ts): classify a non-ok response.
Note that the 402 case replaces the service-provided machine code with the
fixed code `billing_error`. -/
def handleErrorResponse (resp : ResponseM) : ApiErrorM :=
  let b := errBodyOf resp.body
  let message := jsOrStr b.error (chars "API request failed")
  let code := b.code
  if resp.status = 401 then
    ⟨401, chars "Invalid or expired token. Please sign in again.", code⟩
  else if resp.status = 402 then
    ⟨402, jsOrStr (some message) (chars "Insufficient credits"), some (chars "billing_error")⟩
  else if resp.status = 403 then
    ⟨403, chars "Not authorized to access this project", code⟩
  else if resp.status = 404 then
    ⟨404, chars "Project not found", code⟩
  else if resp.status = 413 then
    ⟨413, chars "Specification too large (max 10MB)", code⟩
  else if resp.status = 429 then
    ⟨429, chars "Rate limit exceeded. Please wait before retrying.", code⟩
  else
    ⟨resp.status, message, code⟩

/-- An error escaping the client: a thrown `RestLensAPIError`, or a plain
thrown `Error` from the transport (the rethrown `lastError`; `none` is the
fallback `Error("Request failed")`). -/
inductive EvalErr where
  | apiError (e : ApiErrorM)
  | thrown (msg : Option Chars)
deriving DecidableEq, Repr

/-- The upload body projection: `uploadResult.specification.id` (reading a
body of another shape yields `undefined`, modelled as the empty id — the
source interpolates it into the poll URL without further checks). -/
def uploadBodyOf : BodyM → UploadRespM
  | .uploadB u => u
  | _ => ⟨[]⟩

/-- The violations body projection (a body of another shape reads as an
object with absent fields). -/
def violationsBodyOf : BodyM → ViolationsResponseM
  | .violationsB v => v
  | _ => {}

/-- Trace of `uploadSpec`. -/
structure UploadOutcome where
  result : EResult EvalErr UploadRespM
  fetches : Nat
  delays : List Nat
deriving DecidableEq, Repr

/-- `uploadSpec` (api-client.ts): config check, then one `fetchWithRetry`,
then error classification on a non-ok response. -/
def uploadSpec (env : Nat → FetchOutcome) (orgSlug projSlug : Chars) : UploadOutcome :=
  if orgSlug = [] ∨ projSlug = [] then
    ⟨.error (.apiError ⟨400,
        chars "Organization and project must be configured in .restlens.json",
        some (chars "missing_config")⟩), 0, []⟩
  else
    let t := fetchWithRetry env
    match t.result with
    | .error e => ⟨.error (.thrown e), t.attempts, t.delays⟩
    | .ok resp =>
      if respOk resp then ⟨.ok (uploadBodyOf resp.body), t.attempts, t.delays⟩
      else ⟨.error (.apiError (handleErrorResponse resp)), t.attempts, t.delays⟩

/-- Trace of one `getViolations` call; `env n` is the `n`-th HTTP attempt of
its `fetchWithRetry`. -/
structure GetViolationsOutcome where
  result : EResult EvalErr ViolationsResponseM
  fetches : Nat
  delays : List Nat
deriving DecidableEq, Repr

/-- `getViolations` (api-client.ts). -/
def getViolationsM (env : Nat → FetchOutcome) : GetViolationsOutcome :=
  let t := fetchWithRetry env
  match t.result with
  | .error e => ⟨.error (.thrown e), t.attempts, t.delays⟩
  | .ok resp =>
    if respOk resp then ⟨.ok (violationsBodyOf resp.body), t.attempts, t.delays⟩
    else ⟨.error (.apiError (handleErrorResponse resp)), t.attempts, t.delays⟩

/-- Trace of `pollForResults`: the final result, the number of
`getViolations` calls, and the poll sleeps (ms, in order). -/
structure PollTrace where
  result : EResult EvalErr ViolationsResponseM
  calls : Nat
  sleeps : List Nat
deriving DecidableEq, Repr

/-- The loop of `pollForResults`; `pollEnv n` is the HTTP environment of the
`n`-th `getViolations` call, `fuel` the remaining iterations (initially
`maxAttempts`). -/
def pollGo (pollEnv : Nat → Nat → FetchOutcome) (maxAttempts intervalMs : Nat) :
    Nat → Nat → PollTrace
  | 0, attempt => ⟨.error (.apiError ⟨408, chars "Evaluation timeout", none⟩), attempt, []⟩
  | fuel + 1, attempt =>
    match (getViolationsM (pollEnv attempt)).result with
    | .error e => ⟨.error e, attempt + 1, []⟩
    | .ok result =>
      match result.evaluation with
      | some ev =>
        if ev.status = chars "ready" ∨ ev.status = chars "partial"
            ∨ ev.status = chars "stale" then
          ⟨.ok result, attempt + 1, []⟩
        else if ev.status = chars "error" then
          ⟨.error (.apiError ⟨500, jsOrStr ev.message (chars "Evaluation failed"),
              ev.category⟩), attempt + 1, []⟩
        else
          let rest := pollGo pollEnv maxAttempts intervalMs fuel (attempt + 1)
          if attempt < maxAttempts - 1 then
            ⟨rest.result, rest.calls, intervalMs :: rest.sleeps⟩
          else
            ⟨rest.result, rest.calls, rest.sleeps⟩
      | none =>
        let rest := pollGo pollEnv maxAttempts intervalMs fuel (attempt + 1)
        if attempt < maxAttempts - 1 then
          ⟨rest.result, rest.calls, intervalMs :: rest.sleeps⟩
        else
          ⟨rest.result, rest.calls, rest.sleeps⟩

/-- `pollForResults` (api-client.ts), with its defaults `maxAttempts = 30`,
`intervalMs = 2000`. -/
def pollForResults (pollEnv : Nat → Nat → FetchOutcome)
    (maxAttempts : Nat := 30) (intervalMs : Nat := 2000) : PollTrace :=
  pollGo pollEnv maxAttempts intervalMs maxAttempts 0

/-- Trace of `evaluateSpec`. -/
structure EvalOutcome where
  result : EResult EvalErr ViolationsResponseM
  uploadFetches : Nat
  uploadDelays : List Nat
  pollCalls : Nat
  pollSleeps : List Nat
deriving DecidableEq, Repr

/-- `evaluateSpec` (api-client.ts): upload, then poll.  The service is
modelled by the two environments (the spec id returned by the upload only
feeds the poll URL). -/
def evaluateSpec (uploadEnv : Nat → FetchOutcome) (pollEnv : Nat → Nat → FetchOutcome)
    (orgSlug projSlug : Chars) : EvalOutcome :=
  let u := uploadSpec uploadEnv orgSlug projSlug
  match u.result with
  | .error e => ⟨.error e, u.fetches, u.delays, 0, []⟩
  | .ok _ =>
    let p := pollForResults pollEnv
    ⟨p.result, u.fetches, u.delays, p.calls, p.sleeps⟩

-- =========================================================================
-- DiagnosticsCache (cache.ts): LRU map keyed by the content hash, with TTL
-- =========================================================================

/-- `CACHE_TTL_MS = 5 * 60 * 1000`. -/
def CACHE_TTL_MS : Nat := 5 * 60 * 1000

/-- `CACHE_MAX_SIZE = 100`. -/
def CACHE_MAX_SIZE : Nat := 100

/-- A cache entry: diagnostics plus insertion timestamp. -/
structure CacheEntryM where
  diagnostics : List DiagnosticM
  timestamp : Nat
deriving DecidableEq, Repr

/-- The cache state: key/entry pairs, most recently used first (the model of
the `lru-cache` recency order). -/
structure DiagnosticsCacheM where
  entries : List (Chars × CacheEntryM)
deriving DecidableEq, Repr

/-- Key lookup in the recency list. -/
def lookupEntry (key : Chars) : List (Chars × CacheEntryM) → Option CacheEntryM
  | [] => none
  | (k, e) :: rest => if k = key then some e else lookupEntry key rest

/-- `DiagnosticsCache.set`: hash the content (the cache key is
`sha256(content)`; the hash function is a parameter of the model), insert
the fresh entry at the most-recent position, and evict beyond the capacity
bound (least recently used last). -/
def cacheSet (hash : Chars → Chars) (c : DiagnosticsCacheM) (content : Chars)
    (diagnostics : List DiagnosticM) (now : Nat) : DiagnosticsCacheM :=
  let key := hash content
  let kept := c.entries.filter fun e => !(e.1 = key : Bool)
  ⟨((key, ⟨diagnostics, now⟩) :: kept).take CACHE_MAX_SIZE⟩

/-- `DiagnosticsCache.get`: hash the content and look it up; a stale entry
(`now - timestamp > TTL`, the shared TTL of the wrapper and of the
underlying `lru-cache`) is deleted and reported absent; a fresh hit is
returned and refreshed to most-recent. -/
def cacheGet (hash : Chars → Chars) (c : DiagnosticsCacheM) (content : Chars)
    (now : Nat) : Option (List DiagnosticM) × DiagnosticsCacheM :=
  let key := hash content
  match lookupEntry key c.entries with
  | none => (none, c)
  | some entry =>
    if now - entry.timestamp > CACHE_TTL_MS then
      (none, ⟨c.entries.filter fun e => !(e.1 = key : Bool)⟩)
    else
      (some entry.diagnostics,
       ⟨(key, entry) :: c.entries.filter fun e => !(e.1 = key : Bool)⟩)

/-- `DiagnosticsCache.clear`. -/
def cacheClear (_ : DiagnosticsCacheM) : DiagnosticsCacheM := ⟨[]⟩

-- =========================================================================
-- Validation orchestration (server.ts `validateDocument`)
-- =========================================================================

/-- The first outward-visible action `validateDocument` takes for a
document, in the source's branch order: non-OpenAPI documents get an empty
diagnostics set; an unconfigured client gets the sign-in prompt; a missing
org/project gets the select-project prompt; a cache hit publishes the cached
diagnostics; otherwise an unparseable document gets an empty set, and a
parseable one starts a network evaluation over the captured text. -/
inductive ValidateAction where
  | publishEmpty
  | publishSignInPrompt
  | publishSelectProjectPrompt
  | publishCached (d : List DiagnosticM)
  | startEvaluation (capturedText : Chars)
deriving DecidableEq, Repr

/-- The decision prefix of `validateDocument` (server.ts), up to the first
publish or the start of the network evaluation.  `cacheLookup` abstracts
`cache.get`, `parseOk` abstracts `parseOpenAPISpec` (the external YAML/JSON
parser): `parseOk t = false` models a `null` parse. -/
def validateAction (hasClient : Bool) (organization project : Option Chars)
    (cacheLookup : Chars → Option (List DiagnosticM)) (parseOk : Chars → Bool)
    (doc : TextDocumentModel) : ValidateAction :=
  if !isOpenAPIDocument doc then .publishEmpty
  else if !hasClient then .publishSignInPrompt
  else if jsStr organization = none ∨ jsStr project = none then .publishSelectProjectPrompt
  else
    match cacheLookup doc.text with
    | some cached => .publishCached cached
    | none =>
      if !parseOk doc.text then .publishEmpty
      else .startEvaluation doc.text

/-- The sign-in prompt diagnostic published by `validateDocument` when no
client is configured (server.ts, lines 188–197): range `{0,0}`–`{0,1}`,
severity Information, no code. -/
def signInDiagnostic : DiagnosticM :=
  ⟨⟨⟨0, 0⟩, ⟨0, 1⟩⟩, 3, chars "Sign in to REST Lens to see API design violations",
   chars "REST Lens", none⟩

/-- The select-project prompt diagnostic published by `validateDocument`
when org/project is missing (server.ts, lines 201–212). -/
def selectProjectDiagnostic : DiagnosticM :=
  ⟨⟨⟨0, 0⟩, ⟨0, 1⟩⟩, 3,
   (chars "Run " ++ ('\'' :: (chars "REST Lens: Select Project"
      ++ ('\'' :: chars " to enable evaluation")))),
   chars "REST Lens", none⟩

/-- The per-document state of the asynchronous orchestration: the current
document, the captured texts of the evaluations currently awaiting the
network (`await apiClient.evaluateSpec(spec)` is the only suspension point
of `validateDocument`'s happy path), the publish log (most recent first),
and the cache contents (fingerprints idealised as the exact text). -/
structure OrchState where
  doc : TextDocumentModel
  inFlight : List Chars
  published : List (List DiagnosticM)
  cacheEntries : List (Chars × List DiagnosticM)
deriving DecidableEq, Repr

/-- The configuration read by `validateDocument`: whether an API client is
configured, the org/project slugs, the abstracted `parseOpenAPISpec`
(external YAML/JSON parser) and the `includeInfoSeverity` flag. -/
structure OrchConfig where
  hasClient : Bool
  organization : Option Chars
  project : Option Chars
  parseOk : Chars → Bool
  includeInfo : Bool

/-- Events of the orchestration: a direct `validateDocument` invocation (an
open/save trigger), an edit of the document, and the completion of the
`i`-th pending network call with a violations payload. -/
inductive OrchEvent where
  | trigger
  | edit (t : Chars)
  | complete (i : Nat) (violations : List ViolationKV)
deriving DecidableEq, Repr

/-- Cache lookup of the orchestration model. -/
def lookupDiag (key : Chars) : List (Chars × List DiagnosticM) → Option (List DiagnosticM)
  | [] => none
  | (k, d) :: rest => if k = key then some d else lookupDiag key rest

/-- One atomic step of `validateDocument`'s interleaving semantics
(JavaScript runs each segment between `await`s atomically):

* `trigger` runs `validateDocument` from its entry to its suspension point,
  through every guard branch via `validateAction`: non-OpenAPI and
  unparseable documents publish an empty set, missing client or project
  publishes the prompt diagnostic, a cache hit publishes the cached
  diagnostics, and only otherwise is `document.getText()` captured and a
  network evaluation started — regardless of how many evaluations are
  already pending, since the source has no in-flight guard;
* `edit t` replaces the document text;
* `complete i vs` resumes the `i`-th pending invocation after its awaited
  `evaluateSpec` returns `vs`: the source then calls
  `violationsToDiagnostics(result.violations, document, …)`, which re-reads
  the document's **current** text, stores the diagnostics in the cache under
  the text captured at initiation, and publishes them unconditionally. -/
def orchStep (cfg : OrchConfig) (s : OrchState) : OrchEvent → OrchState
  | .trigger =>
    match validateAction cfg.hasClient cfg.organization cfg.project
        (fun t => lookupDiag t s.cacheEntries) cfg.parseOk s.doc with
    | .publishEmpty => { s with published := [] :: s.published }
    | .publishSignInPrompt => { s with published := [signInDiagnostic] :: s.published }
    | .publishSelectProjectPrompt =>
      { s with published := [selectProjectDiagnostic] :: s.published }
    | .publishCached cached => { s with published := cached :: s.published }
    | .startEvaluation captured => { s with inFlight := s.inFlight ++ [captured] }
  | .edit t => { s with doc := { s.doc with text := t } }
  | .complete i vs =>
    match s.inFlight.get? i with
    | none => s
    | some captured =>
      let diagnostics := violationsToDiagnostics vs s.doc.text cfg.includeInfo
      { s with
        inFlight := s.inFlight.eraseIdx i,
        cacheEntries := (captured, diagnostics) :: s.cacheEntries,
        published := diagnostics :: s.published }

/-- Run a sequence of orchestration events. -/
def orchRun (cfg : OrchConfig) (s : OrchState) (events : List OrchEvent) : OrchState :=
  events.foldl (orchStep cfg) s

-- =========================================================================
-- Concrete instances used by the claim theorems, witnesses and
-- counterexamples
-- =========================================================================

/-- A poll response that keeps the loop going: its status (when present) is
none of `ready`, `partial`, `stale`, `error`. -/
def nonTerminalResp (r : ViolationsResponseM) : Prop :=
  ∀ ev, r.evaluation = some ev →
    ev.status ≠ chars "ready" ∧ ev.status ≠ chars "partial"
    ∧ ev.status ≠ chars "stale" ∧ ev.status ≠ chars "error"

def upEnvC3 : Nat → FetchOutcome := fun n =>
  if n < 2 then .ok ⟨500, .errB ⟨some (chars "server error"), none⟩⟩
  else .ok ⟨200, .uploadB ⟨chars "spec-1"⟩⟩

def pollEnvC3 : Nat → Nat → FetchOutcome := fun _ _ =>
  .ok ⟨200, .violationsB ⟨some ⟨chars "ready", none, none⟩, some []⟩⟩

def respC4 : ResponseM := ⟨404, .errB ⟨some (chars "no such project"), some (chars "proj_missing")⟩⟩

def envC4 : Nat → FetchOutcome := fun _ => .ok respC4

def respC4b : ResponseM :=
  ⟨402, .errB ⟨some (chars "Insufficient credits"), some (chars "card_declined")⟩⟩

def pendingEnvC5 : Nat → Nat → FetchOutcome := fun _ _ =>
  .ok ⟨200, .violationsB ⟨some ⟨chars "pending", none, none⟩, none⟩⟩

def readyEnvC5 : Nat → Nat → FetchOutcome := fun _ _ =>
  .ok ⟨200, .violationsB ⟨some ⟨chars "ready", none, none⟩, some []⟩⟩

def errorEnvC5 : Nat → Nat → FetchOutcome := fun _ _ =>
  .ok ⟨200, .violationsB ⟨some ⟨chars "error", some (chars "boom"), some (chars "internal")⟩, none⟩⟩

def docC9 : TextDocumentModel :=
  ⟨chars "file:///tmp/notes.yaml", chars "yaml", chars "title: shopping list\nitems:\n  - milk\n"⟩

def textC2 : Chars :=
  chars "openapi: 3.0.0\ncomponents:\n  schemas:\n    PetsPage:\n      description: see /pets docs\npaths:\n  /pets/123:\n    get:\n"

def petsKeyC2 : ViolationKey :=
  { violation_key_type := .path, path := some (chars "/pets/{petId}") }

def orchT0 : Chars := chars "openapi: 3.0.0\ninfo:\n  title: x\n"

def orchT1 : Chars := chars "openapi: 3.0.0\n\ninfo:\n  title: x\n"

/-- A document that passes every guard of `validateDocument`: YAML language
id and a matching `openapi: 3.` signature; its text is also well-formed YAML
with an `openapi` field, so instantiating the parser abstraction with
success is truthful. -/
def orchDoc0 : TextDocumentModel := ⟨chars "file:///spec.yaml", chars "yaml", orchT0⟩

def orchVs : List ViolationKV :=
  [⟨{ violation_key_type := .info }, [⟨7, chars "Info section incomplete", some .warning, none⟩]⟩]

def orchCfg : OrchConfig :=
  ⟨true, some (chars "acme"), some (chars "petstore"), fun _ => true, false⟩

def orchS0 : OrchState := ⟨orchDoc0, [], [], []⟩

-- =========================================================================
-- Basic lemmas about the string primitives
-- =========================================================================

theorem prefixOf_length {p s : Chars} (h : prefixOf p s = true) : p.length ≤ s.length := by
  induction p generalizing s with
  | nil => simp
  | cons a as ih =>
    match s with
    | [] => simp [prefixOf] at h
    | b :: bs =>
      simp only [prefixOf, Bool.and_eq_true] at h
      have := ih h.2
      simp only [List.length_cons]
      omega

theorem prefixOf_trans {q p s : Chars} (hqp : prefixOf q p = true)
    (hps : prefixOf p s = true) : prefixOf q s = true := by
  induction q generalizing p s with
  | nil => simp [prefixOf]
  | cons a as ih =>
    match p, s with
    | [], _ => simp [prefixOf] at hqp
    | _ :: _, [] => simp [prefixOf] at hps
    | b :: bs, c :: cs =>
      simp only [prefixOf, Bool.and_eq_true, beq_iff_eq] at hqp hps ⊢
      exact ⟨hqp.1.trans hps.1, ih hqp.2 hps.2⟩

theorem prefixOf_cons_drop {c : Char} {p s : Chars} (h : prefixOf (c :: p) s = true) :
    prefixOf p (s.drop 1) = true := by
  match s with
  | [] => simp [prefixOf] at h
  | b :: bs =>
    simp only [prefixOf, Bool.and_eq_true] at h
    simpa using h.2

theorem indexOfAux_none {pat : Chars} :
    ∀ {s : Chars} {i : Nat}, indexOfAux pat s i = none →
      ∀ j, prefixOf pat (s.drop j) = false := by
  intro s
  induction s with
  | nil =>
    intro i h j
    simp only [indexOfAux] at h
    rw [List.drop_nil]
    by_cases hp : prefixOf pat [] = true
    · simp [hp] at h
    · simpa using hp
  | cons c rest ih =>
    intro i h j
    rw [indexOfAux] at h
    by_cases hp : prefixOf pat (c :: rest) = true
    · simp [hp] at h
    · rw [if_neg hp] at h
      match j with
      | 0 => simpa using hp
      | j + 1 =>
        rw [List.drop_succ_cons]
        exact ih h j

theorem indexOfAux_some {pat : Chars} :
    ∀ {s : Chars} {i j : Nat}, indexOfAux pat s i = some j →
      i ≤ j ∧ j - i ≤ s.length ∧ prefixOf pat (s.drop (j - i)) = true := by
  intro s
  induction s with
  | nil =>
    intro i j h
    simp only [indexOfAux] at h
    by_cases hp : prefixOf pat [] = true
    · rw [if_pos hp] at h
      cases h
      simpa using hp
    · simp [hp] at h
  | cons c rest ih =>
    intro i j h
    rw [indexOfAux] at h
    by_cases hp : prefixOf pat (c :: rest) = true
    · rw [if_pos hp] at h
      cases h
      simpa using hp
    · rw [if_neg hp] at h
      obtain ⟨h1, h2, h3⟩ := ih h
      refine ⟨by omega, by simp only [List.length_cons]; omega, ?_⟩
      have hd : j - i = (j - (i + 1)) + 1 := by omega
      rw [hd, List.drop_succ_cons]
      exact h3

theorem indexOfC_some_bound {s pat : Chars} {j : Nat} (h : indexOfC s pat = some j) :
    j + pat.length ≤ s.length ∧ prefixOf pat (s.drop j) = true := by
  obtain ⟨_, h2, h3⟩ := indexOfAux_some h
  simp only [Nat.sub_zero] at h2 h3
  have hl := prefixOf_length h3
  rw [List.length_drop] at hl
  exact ⟨by omega, h3⟩

theorem indexOfC_none {s pat : Chars} (h : indexOfC s pat = none) :
    ∀ j, prefixOf pat (s.drop j) = false :=
  indexOfAux_none h

theorem firstPatternHit_some {s : Chars} :
    ∀ {pats : List Chars} {p : Chars} {i : Nat},
      firstPatternHit s pats = some (p, i) → indexOfC s p = some i := by
  intro pats
  induction pats with
  | nil => intro p i h; simp [firstPatternHit] at h
  | cons q qs ih =>
    intro p i h
    rw [firstPatternHit] at h
    cases hq : indexOfC s q with
    | some k =>
      rw [hq] at h
      cases h
      exact hq
    | none =>
      rw [hq] at h
      exact ih h

theorem splitNl_ne_nil : ∀ c : Chars, splitNl c ≠ [] := by
  intro c
  match c with
  | [] => simp [splitNl]
  | ch :: rest =>
    by_cases h : ch = '\n'
    · simp [splitNl, h]
    · rw [splitNl, if_neg h]
      cases hr : splitNl rest <;> simp

theorem splitNl_sumLen : ∀ c : Chars, ((splitNl c).map fun l => l.length + 1).sum = c.length + 1 := by
  intro c
  induction c with
  | nil => simp [splitNl]
  | cons ch rest ih =>
    by_cases h : ch = '\n'
    · rw [splitNl, if_pos h]
      simp only [List.map_cons, List.sum_cons, ih, List.length_cons, List.length_nil]
      omega
    · rw [splitNl, if_neg h]
      cases hr : splitNl rest with
      | nil => exact absurd hr (splitNl_ne_nil rest)
      | cons l ls =>
        rw [hr] at ih
        simp only [List.map_cons, List.sum_cons, List.length_cons] at ih ⊢
        omega

theorem splitNl_head : ∀ c : Chars,
    (splitNl c).head? = some (c.takeWhile fun ch => !(ch == '\n')) := by
  intro c
  induction c with
  | nil => rfl
  | cons ch rest ih =>
    by_cases h : ch = '\n'
    · rw [splitNl, if_pos h]
      simp [List.takeWhile_cons, h]
    · rw [splitNl, if_neg h]
      cases hr : splitNl rest with
      | nil => exact absurd hr (splitNl_ne_nil rest)
      | cons l ls =>
        rw [hr] at ih
        simp only [List.head?_cons, Option.some.injEq] at ih
        simp [List.takeWhile_cons, h, ← ih]

-- =========================================================================
-- Claim C10 (indexToRange)
-- =========================================================================

theorem indexToRangeGo_oob (index : Nat) :
    ∀ (lines : List Chars) (i cur : Nat),
      cur + ((lines.map fun l => l.length + 1).sum) ≤ index →
      indexToRangeGo index lines i cur = ⟨0, 0⟩ := by
  intro lines
  induction lines with
  | nil => intro i cur _; rfl
  | cons l ls ih =>
    intro i cur h
    simp only [List.map_cons, List.sum_cons] at h
    rw [indexToRangeGo, if_neg (by omega)]
    exact ih _ _ (by omega)

/-- Claim C10 (amended): every range produced by `indexToRange` lies on a
single line, with the end column equal to the start column plus the match
length (even when the matched pattern spans a newline); and for every index
strictly beyond the content length (i.e. at least `content.length + 1`, the
total of the per-line lengths counting one column per newline) the function
returns the document-start position `{line 0, character 0}`. -/
theorem indexToRange_single_line_and_overflow (index length : Nat) (content : Chars) :
    ((indexToRange index length (splitNl content)).start.line
        = (indexToRange index length (splitNl content)).stop.line
      ∧ (indexToRange index length (splitNl content)).stop.character
        = (indexToRange index length (splitNl content)).start.character + length)
    ∧ (content.length + 1 ≤ index →
        indexToRange index length (splitNl content) = ⟨⟨0, 0⟩, ⟨0, length⟩⟩) := by
  constructor
  · exact ⟨rfl, rfl⟩
  · intro h
    have hgo : indexToRangeGo index (splitNl content) 0 0 = ⟨0, 0⟩ :=
      indexToRangeGo_oob index (splitNl content) 0 0 (by rw [splitNl_sumLen]; omega)
    simp [indexToRange, hgo]

/-- Witness for claim C10's amended theorem at a concrete out-of-range
index. -/
theorem indexToRange_single_line_and_overflow_witness :
    (chars "ab").length + 1 ≤ 10
    ∧ indexToRange 10 2 (splitNl (chars "ab")) = ⟨⟨0, 0⟩, ⟨0, 2⟩⟩ :=
  ⟨by decide, (indexToRange_single_line_and_overflow 10 2 (chars "ab")).2 (by decide)⟩

/-- Claim C10 as frozen is false at an index equal to the content length:
for the three-character content `a\nb` and index 3, `indexToRange` returns
the end-of-last-line position `{line 1, character 1}`, not the document
start `{line 0, character 0}`. -/
theorem indexToRange_at_content_length_counterexample :
    (chars "a\nb").length = 3
    ∧ indexToRange 3 5 (splitNl (chars "a\nb")) = ⟨⟨1, 1⟩, ⟨1, 6⟩⟩
    ∧ (indexToRange 3 5 (splitNl (chars "a\nb"))).start ≠ ⟨0, 0⟩ := by
  refine ⟨by decide, by decide, by decide⟩

-- =========================================================================
-- Claim C8 (DiagnosticsCache)
-- =========================================================================

theorem lookupEntry_filter_self (key : Chars) :
    ∀ l : List (Chars × CacheEntryM),
      lookupEntry key (l.filter fun e => !(e.1 = key : Bool)) = none := by
  intro l
  induction l with
  | nil => rfl
  | cons e rest ih =>
    by_cases h : e.1 = key
    · simp [List.filter_cons, h, ih]
    · simp [List.filter_cons, h, lookupEntry, ih]

/-- Claim C8: after `set(d, D)` at time `t0`, `get(d)` at time `now` returns
`D` while `now - t0 ≤ TTL` (the entry just set is most-recent, so no
capacity eviction can have removed it); once `now - t0 > TTL` the entry is
evicted and `get` returns absent; after `clear()` every lookup is absent;
and the capacity bound keeps at most `CACHE_MAX_SIZE = 100` entries. -/
theorem cache_set_get_ttl_clear (hash : Chars → Chars) (c : DiagnosticsCacheM)
    (content : Chars) (D : List DiagnosticM) (t0 now : Nat) :
    (now - t0 ≤ CACHE_TTL_MS →
      (cacheGet hash (cacheSet hash c content D t0) content now).1 = some D)
    ∧ (now - t0 > CACHE_TTL_MS →
      (cacheGet hash (cacheSet hash c content D t0) content now).1 = none
      ∧ lookupEntry (hash content)
          ((cacheGet hash (cacheSet hash c content D t0) content now).2).entries = none)
    ∧ (cacheGet hash (cacheClear c) content now).1 = none
    ∧ (cacheSet hash c content D t0).entries.length ≤ CACHE_MAX_SIZE := by
  have hlook : lookupEntry (hash content) (cacheSet hash c content D t0).entries
      = some ⟨D, t0⟩ := by
    simp only [cacheSet, CACHE_MAX_SIZE]
    rw [List.take_cons (by omega)]
    simp [lookupEntry]
  refine ⟨?_, ?_, ?_, ?_⟩
  · intro h
    simp only [cacheGet, hlook]
    rw [if_neg (by omega)]
  · intro h
    constructor
    · simp only [cacheGet, hlook]
      rw [if_pos (by omega)]
    · simp only [cacheGet, hlook]
      rw [if_pos (by omega)]
      exact lookupEntry_filter_self _ _
  · simp [cacheGet, cacheClear, lookupEntry]
  · simp only [cacheSet]
    rw [List.length_take]
    omega

/-- Witness for claim C8's theorem at concrete inputs: the identity hash, an
empty cache, a concrete document and both a fresh and a stale query time. -/
theorem cache_set_get_ttl_clear_witness :
    (100 - 0 ≤ CACHE_TTL_MS →
      (cacheGet (fun s => s) (cacheSet (fun s => s) ⟨[]⟩ (chars "doc") [] 0) (chars "doc") 100).1
        = some [])
    ∧ (100 - 0 ≤ CACHE_TTL_MS)
    ∧ ((400000 : Nat) - 0 > CACHE_TTL_MS)
    ∧ ((400000 : Nat) - 0 > CACHE_TTL_MS →
      (cacheGet (fun s => s) (cacheSet (fun s => s) ⟨[]⟩ (chars "doc") [] 0) (chars "doc") 400000).1
        = none
      ∧ lookupEntry ((fun s => s) (chars "doc"))
          ((cacheGet (fun s => s) (cacheSet (fun s => s) ⟨[]⟩ (chars "doc") [] 0)
              (chars "doc") 400000).2).entries = none) :=
  ⟨(cache_set_get_ttl_clear (fun s => s) ⟨[]⟩ (chars "doc") [] 0 100).1,
   by decide, by decide,
   (cache_set_get_ttl_clear (fun s => s) ⟨[]⟩ (chars "doc") [] 0 400000).2.1⟩

-- =========================================================================
-- Client lemmas (fetchWithRetry / pollForResults behaviour)
-- =========================================================================

theorem not4xx_of_ok {r : ResponseM} (h : respOk r = true) :
    ¬((400 ≤ r.status && r.status < 500) = true) := by
  simp only [respOk, Bool.and_eq_true, decide_eq_true_eq] at h ⊢
  omega

theorem not4xx_of_5xx {r : ResponseM} (h : 500 ≤ r.status) :
    ¬((400 ≤ r.status && r.status < 500) = true) := by
  simp only [Bool.and_eq_true, decide_eq_true_eq]
  omega

theorem notOk_of_5xx {r : ResponseM} (h : 500 ≤ r.status) : ¬(respOk r = true) := by
  simp only [respOk, Bool.and_eq_true, decide_eq_true_eq]
  omega

theorem fetchWithRetry_first_not5xx (env : Nat → FetchOutcome) (r : ResponseM)
    (h : env 0 = .ok r) (hok : respOk r = true) :
    fetchWithRetry env = ⟨.ok r, 1, []⟩ := by
  rw [fetchWithRetry, show (3 : Nat) = 2 + 1 from rfl, fetchGo, h]
  dsimp only
  rw [if_neg (not4xx_of_ok hok), if_pos hok]

theorem fetchWithRetry_first_4xx (env : Nat → FetchOutcome) (r : ResponseM)
    (h : env 0 = .ok r) (h4 : 400 ≤ r.status) (h5 : r.status < 500) :
    fetchWithRetry env = ⟨.ok r, 1, []⟩ := by
  rw [fetchWithRetry, show (3 : Nat) = 2 + 1 from rfl, fetchGo, h]
  dsimp only
  rw [if_pos (by simp only [Bool.and_eq_true, decide_eq_true_eq]; omega)]

theorem fetchWithRetry_5xx_twice (env : Nat → FetchOutcome) (r0 r1 r2 : ResponseM)
    (h0 : env 0 = .ok r0) (h5a : 500 ≤ r0.status)
    (h1 : env 1 = .ok r1) (h5b : 500 ≤ r1.status)
    (h2 : env 2 = .ok r2) (hok : respOk r2 = true) :
    fetchWithRetry env = ⟨.ok r2, 3, [1000, 2000]⟩ := by
  have s2 : fetchGo env 3 1 2 none = ⟨.ok r2, 3, []⟩ := by
    rw [show (1 : Nat) = 0 + 1 from rfl, fetchGo, h2]
    dsimp only
    rw [if_neg (not4xx_of_ok hok), if_pos hok]
  have s1 : fetchGo env 3 2 1 none = ⟨.ok r2, 3, [2000]⟩ := by
    rw [show (2 : Nat) = 1 + 1 from rfl, fetchGo, h1]
    dsimp only
    rw [if_neg (not4xx_of_5xx h5b), if_neg (notOk_of_5xx h5b),
        if_pos (by omega : (1 : Nat) < 3 - 1)]
    simp [s2]
  rw [fetchWithRetry, show (3 : Nat) = 2 + 1 from rfl, fetchGo, h0]
  dsimp only
  rw [if_neg (not4xx_of_5xx h5a), if_neg (notOk_of_5xx h5a),
      if_pos (by omega : (0 : Nat) < 2 + 1 - 1)]
  have s1' : fetchGo env (2 + 1) 2 (0 + 1) none = ⟨.ok r2, 3, [2000]⟩ := s1
  simp [s1']

theorem fetchGo_attempts_le (env : Nat → FetchOutcome) (m : Nat) :
    ∀ (fuel attempt : Nat) (e : Option Chars),
      (fetchGo env m fuel attempt e).attempts ≤ attempt + fuel := by
  intro fuel
  induction fuel with
  | zero => intro attempt e; simp [fetchGo]
  | succ n ih =>
    intro attempt e
    rw [fetchGo]
    cases henv : env attempt with
    | ok r =>
      dsimp only
      by_cases h1 : (400 ≤ r.status && r.status < 500) = true
      · rw [if_pos h1]; dsimp only; omega
      · rw [if_neg h1]
        by_cases h2 : respOk r = true
        · rw [if_pos h2]; dsimp only; omega
        · rw [if_neg h2]
          by_cases h3 : attempt < m - 1
          · rw [if_pos h3]
            have := ih (attempt + 1) e
            dsimp only
            omega
          · rw [if_neg h3]; dsimp only; omega
    | netError msg =>
      dsimp only
      by_cases h3 : attempt < m - 1
      · rw [if_pos h3]
        have := ih (attempt + 1) (some msg)
        dsimp only
        omega
      · rw [if_neg h3]
        have := ih (attempt + 1) (some msg)
        dsimp only
        omega

theorem getViolationsM_first_ok (env : Nat → FetchOutcome) (pr : ResponseM)
    (h : env 0 = .ok pr) (hok : respOk pr = true) :
    getViolationsM env = ⟨.ok (violationsBodyOf pr.body), 1, []⟩ := by
  rw [getViolationsM]
  simp [fetchWithRetry_first_not5xx env pr h hok, hok]

-- =========================================================================
-- Claim C3 (retry with exponential backoff on 5xx)
-- =========================================================================

/-- Claim C3: a request answered 500 on the first two attempts and 200 on the
third makes `evaluateSpec` succeed after exactly 2 retries (3 fetches) and
return the final violations response; the backoff sleeps are 1000 ms then
2000 ms (base delay 1 s, doubling per attempt); and the number of fetch
attempts of any `fetchWithRetry` call is capped at 3. -/
theorem evaluateSpec_5xx_retry (uploadEnv : Nat → FetchOutcome)
    (pollEnv : Nat → Nat → FetchOutcome) (org proj : Chars)
    (r0 r1 r2 pr : ResponseM) (ev : EvaluationM) :
    (org ≠ [] → proj ≠ [] →
     uploadEnv 0 = .ok r0 → 500 ≤ r0.status →
     uploadEnv 1 = .ok r1 → 500 ≤ r1.status →
     uploadEnv 2 = .ok r2 → respOk r2 = true →
     pollEnv 0 0 = .ok pr → respOk pr = true →
     (violationsBodyOf pr.body).evaluation = some ev →
     ev.status = chars "ready" →
     evaluateSpec uploadEnv pollEnv org proj
       = ⟨.ok (violationsBodyOf pr.body), 3, [1000, 2000], 1, []⟩)
    ∧ ∀ env : Nat → FetchOutcome, (fetchWithRetry env).attempts ≤ 3 := by
  constructor
  · intro horg hproj h0 h5a h1 h5b h2 hok hpr hprok hev hst
    have hupfetch := fetchWithRetry_5xx_twice uploadEnv r0 r1 r2 h0 h5a h1 h5b h2 hok
    have hup : uploadSpec uploadEnv org proj
        = ⟨.ok (uploadBodyOf r2.body), 3, [1000, 2000]⟩ := by
      rw [uploadSpec, if_neg (by simp [horg, hproj])]
      simp [hupfetch, hok]
    have hget := getViolationsM_first_ok (pollEnv 0) pr hpr hprok
    have hpoll : pollForResults pollEnv = ⟨.ok (violationsBodyOf pr.body), 1, []⟩ := by
      show pollGo pollEnv 30 2000 30 0 = _
      rw [show (30 : Nat) = 29 + 1 from rfl, pollGo, hget]
      dsimp only
      rw [hev]
      dsimp only
      rw [if_pos (Or.inl hst)]
    rw [evaluateSpec, hup]
    dsimp only
    rw [hpoll]
  · intro env
    have := fetchGo_attempts_le env 3 3 0 none
    simpa [fetchWithRetry] using this

/-- Witness for claim C3's theorem at a concrete mocked service. -/
theorem evaluateSpec_5xx_retry_witness :
    evaluateSpec upEnvC3 pollEnvC3 (chars "org") (chars "proj")
      = ⟨.ok ⟨some ⟨chars "ready", none, none⟩, some []⟩, 3, [1000, 2000], 1, []⟩ := by
  have := (evaluateSpec_5xx_retry upEnvC3 pollEnvC3 (chars "org") (chars "proj")
      ⟨500, .errB ⟨some (chars "server error"), none⟩⟩
      ⟨500, .errB ⟨some (chars "server error"), none⟩⟩
      ⟨200, .uploadB ⟨chars "spec-1"⟩⟩
      ⟨200, .violationsB ⟨some ⟨chars "ready", none, none⟩, some []⟩⟩
      ⟨chars "ready", none, none⟩).1
      (by decide) (by decide) (by decide) (by decide) (by decide) (by decide)
      (by decide) (by decide) (by decide) (by decide) (by decide) (by decide)
  exact this

-- =========================================================================
-- Claim C4 (4xx fail-fast and error classification)
-- =========================================================================

/-- Claim C4 (amended): a 4xx response is returned by `fetchWithRetry` after
a single fetch (no retry, no backoff sleep), and `uploadSpec` turns it into
the classified error immediately; the classification maps
401/403/404/413/429 and the generic case to an error carrying the original
status and the service-provided machine code from the error body, while the
402 (billing) case always carries the fixed code `billing_error` instead of
the service-provided code. -/
theorem client_4xx_fail_fast_classified (env : Nat → FetchOutcome) (resp : ResponseM)
    (org proj : Chars) :
    (env 0 = .ok resp → 400 ≤ resp.status → resp.status < 500 →
      (fetchWithRetry env = ⟨.ok resp, 1, []⟩
       ∧ (org ≠ [] → proj ≠ [] →
           uploadSpec env org proj
             = ⟨.error (.apiError (handleErrorResponse resp)), 1, []⟩)))
    ∧ (∀ b, handleErrorResponse ⟨401, b⟩
        = ⟨401, chars "Invalid or expired token. Please sign in again.", (errBodyOf b).code⟩)
    ∧ (∀ b, (handleErrorResponse ⟨402, b⟩).status = 402
        ∧ (handleErrorResponse ⟨402, b⟩).code = some (chars "billing_error"))
    ∧ (∀ b, handleErrorResponse ⟨403, b⟩
        = ⟨403, chars "Not authorized to access this project", (errBodyOf b).code⟩)
    ∧ (∀ b, handleErrorResponse ⟨404, b⟩
        = ⟨404, chars "Project not found", (errBodyOf b).code⟩)
    ∧ (∀ b, handleErrorResponse ⟨413, b⟩
        = ⟨413, chars "Specification too large (max 10MB)", (errBodyOf b).code⟩)
    ∧ (∀ b, handleErrorResponse ⟨429, b⟩
        = ⟨429, chars "Rate limit exceeded. Please wait before retrying.", (errBodyOf b).code⟩)
    ∧ (∀ s b, s ≠ 401 → s ≠ 402 → s ≠ 403 → s ≠ 404 → s ≠ 413 → s ≠ 429 →
        handleErrorResponse ⟨s, b⟩
          = ⟨s, jsOrStr (errBodyOf b).error (chars "API request failed"), (errBodyOf b).code⟩) := by
  refine ⟨?_, ?_, ?_, ?_, ?_, ?_, ?_, ?_⟩
  · intro h h4 h5
    have hfetch := fetchWithRetry_first_4xx env resp h h4 h5
    refine ⟨hfetch, ?_⟩
    intro horg hproj
    have hnk : respOk resp = false := by
      simp only [respOk]
      simp only [Bool.and_eq_false_iff, decide_eq_false_iff_not]
      omega
    rw [uploadSpec, if_neg (by simp [horg, hproj])]
    simp [hfetch, hnk]
  · intro b; rfl
  · intro b; exact ⟨rfl, rfl⟩
  · intro b; rfl
  · intro b; rfl
  · intro b; rfl
  · intro b; rfl
  · intro s b h1 h2 h3 h4 h5 h6
    rw [handleErrorResponse]
    dsimp only
    rw [if_neg h1, if_neg h2, if_neg h3, if_neg h4, if_neg h5, if_neg h6]

/-- Witness for claim C4's theorem: a concrete 404 response is returned after
one fetch and classified with the original status and service code. -/
theorem client_4xx_fail_fast_classified_witness :
    fetchWithRetry envC4 = ⟨.ok respC4, 1, []⟩
    ∧ uploadSpec envC4 (chars "org") (chars "proj")
        = ⟨.error (.apiError (handleErrorResponse respC4)), 1, []⟩ := by
  have h := (client_4xx_fail_fast_classified envC4 respC4 (chars "org") (chars "proj")).1
      rfl (by decide) (by decide)
  exact ⟨h.1, h.2 (by decide) (by decide)⟩

/-- Claim C4 as frozen is false for 402 responses: the service-provided
machine code `card_declined` is not carried on the raised error, which
always carries the fixed code `billing_error`. -/
theorem handleErrorResponse_402_code_counterexample :
    (errBodyOf respC4b.body).code = some (chars "card_declined")
    ∧ (handleErrorResponse respC4b).code = some (chars "billing_error")
    ∧ (handleErrorResponse respC4b).code ≠ (errBodyOf respC4b.body).code := by
  refine ⟨rfl, rfl, by decide⟩

-- =========================================================================
-- Claim C5 (poll loop: terminal statuses, error status, timeout)
-- =========================================================================

theorem pollGo_timeout (pollEnv : Nat → Nat → FetchOutcome)
    (henv : ∀ k, k < 30 → ∃ r, (getViolationsM (pollEnv k)).result = .ok r ∧ nonTerminalResp r) :
    ∀ (fuel attempt : Nat), attempt + fuel = 30 →
      pollGo pollEnv 30 2000 fuel attempt
        = ⟨.error (.apiError ⟨408, chars "Evaluation timeout", none⟩), 30,
           List.replicate (fuel - 1) 2000⟩ := by
  intro fuel
  induction fuel with
  | zero =>
    intro attempt h
    have ha : attempt = 30 := by omega
    subst ha
    rfl
  | succ n ih =>
    intro attempt h
    obtain ⟨r, hr, hnt⟩ := henv attempt (by omega)
    have hrest := ih (attempt + 1) (by omega)
    rw [pollGo, hr]
    dsimp only
    cases hev : r.evaluation with
    | none =>
      dsimp only
      rw [hrest]
      by_cases hlt : attempt < 30 - 1
      · rw [if_pos hlt]
        have hn : 1 ≤ n := by omega
        dsimp only
        congr 1
        rw [show n + 1 - 1 = (n - 1) + 1 by omega, List.replicate_succ]
      · rw [if_neg hlt]
        have hn : n = 0 := by omega
        subst hn
        rfl
    | some ev =>
      obtain ⟨hne1, hne2, hne3, hne4⟩ := hnt ev hev
      dsimp only
      rw [if_neg (by simp [hne1, hne2, hne3]), if_neg hne4, hrest]
      by_cases hlt : attempt < 30 - 1
      · rw [if_pos hlt]
        dsimp only
        congr 1
        rw [show n + 1 - 1 = (n - 1) + 1 by omega, List.replicate_succ]
      · rw [if_neg hlt]
        have hn : n = 0 := by omega
        subst hn
        rfl

/-- Claim C5: a service that never reaches a terminal status makes
`pollForResults` perform exactly 30 `getViolations` calls with 29 sleeps of
the fixed 2000 ms interval and fail with the 408 `Evaluation timeout` error;
a first response with status `ready`, `partial` or `stale` is returned to
the caller as the result after one call; a first response with status
`error` fails immediately with the service-supplied message (defaulted when
empty) and category. -/
theorem pollForResults_terminal_error_timeout (pollEnv : Nat → Nat → FetchOutcome) :
    ((∀ k, k < 30 → ∃ r, (getViolationsM (pollEnv k)).result = .ok r ∧ nonTerminalResp r) →
      pollForResults pollEnv
        = ⟨.error (.apiError ⟨408, chars "Evaluation timeout", none⟩), 30,
           List.replicate 29 2000⟩)
    ∧ (∀ r ev, (getViolationsM (pollEnv 0)).result = .ok r → r.evaluation = some ev →
        (ev.status = chars "ready" ∨ ev.status = chars "partial" ∨ ev.status = chars "stale") →
        pollForResults pollEnv = ⟨.ok r, 1, []⟩)
    ∧ (∀ r ev, (getViolationsM (pollEnv 0)).result = .ok r → r.evaluation = some ev →
        ev.status = chars "error" →
        pollForResults pollEnv
          = ⟨.error (.apiError ⟨500, jsOrStr ev.message (chars "Evaluation failed"),
              ev.category⟩), 1, []⟩) := by
  refine ⟨?_, ?_, ?_⟩
  · intro henv
    have := pollGo_timeout pollEnv henv 30 0 (by omega)
    exact this
  · intro r ev hr hev hst
    show pollGo pollEnv 30 2000 30 0 = _
    rw [show (30 : Nat) = 29 + 1 from rfl, pollGo, hr]
    dsimp only
    rw [hev]
    dsimp only
    rw [if_pos hst]
  · intro r ev hr hev hst
    have hne : ¬(ev.status = chars "ready" ∨ ev.status = chars "partial"
        ∨ ev.status = chars "stale") := by
      rw [hst]
      decide
    show pollGo pollEnv 30 2000 30 0 = _
    rw [show (30 : Nat) = 29 + 1 from rfl, pollGo, hr]
    dsimp only
    rw [hev]
    dsimp only
    rw [if_neg hne, if_pos hst]

/-- Witness for claim C5's theorem on three concrete services: always
pending, immediately ready, immediately failed. -/
theorem pollForResults_terminal_error_timeout_witness :
    pollForResults pendingEnvC5
      = ⟨.error (.apiError ⟨408, chars "Evaluation timeout", none⟩), 30,
         List.replicate 29 2000⟩
    ∧ pollForResults readyEnvC5
      = ⟨.ok ⟨some ⟨chars "ready", none, none⟩, some []⟩, 1, []⟩
    ∧ pollForResults errorEnvC5
      = ⟨.error (.apiError ⟨500,
          jsOrStr (some (chars "boom")) (chars "Evaluation failed"),
          some (chars "internal")⟩), 1, []⟩ := by
  refine ⟨?_, ?_, ?_⟩
  · refine (pollForResults_terminal_error_timeout pendingEnvC5).1 ?_
    intro k hk
    refine ⟨⟨some ⟨chars "pending", none, none⟩, none⟩, rfl, ?_⟩
    intro ev hev
    cases hev
    exact ⟨by decide, by decide, by decide, by decide⟩
  · exact (pollForResults_terminal_error_timeout readyEnvC5).2.1
      ⟨some ⟨chars "ready", none, none⟩, some []⟩ ⟨chars "ready", none, none⟩
      (by decide) rfl (Or.inl rfl)
  · exact (pollForResults_terminal_error_timeout errorEnvC5).2.2
      ⟨some ⟨chars "error", some (chars "boom"), some (chars "internal")⟩, none⟩
      ⟨chars "error", some (chars "boom"), some (chars "internal")⟩
      (by decide) rfl rfl

-- =========================================================================
-- Claim C9 (non-OpenAPI documents: empty diagnostics, no network call)
-- =========================================================================

theorem oasYamlAt_occurrence {s : Chars} (h : oasYamlAt s = true) :
    prefixOf (chars "openapi") s = true := by
  rw [oasYamlAt] at h
  by_cases hp : prefixOf (chars "openapi:") s = true
  · exact prefixOf_trans (by decide) hp
  · simp [hp] at h

theorem oasYamlScanAux_occurrence :
    ∀ {s : Chars}, oasYamlScanAux s = true →
      ∃ j, prefixOf (chars "openapi") (s.drop j) = true := by
  intro s
  induction s with
  | nil => intro h; simp [oasYamlScanAux] at h
  | cons c rest ih =>
    intro h
    rw [oasYamlScanAux] at h
    simp only [Bool.or_eq_true, Bool.and_eq_true] at h
    rcases h with ⟨_, hat⟩ | h2
    · obtain hpre := oasYamlAt_occurrence hat
      exact ⟨1, by simpa using hpre⟩
    · obtain ⟨j, hj⟩ := ih h2
      exact ⟨j + 1, by simpa using hj⟩

theorem oasYamlTest_occurrence {s : Chars} (h : oasYamlTest s = true) :
    ∃ j, prefixOf (chars "openapi") (s.drop j) = true := by
  rw [oasYamlTest] at h
  simp only [Bool.or_eq_true] at h
  rcases h with h1 | h2
  · exact ⟨0, by simpa using oasYamlAt_occurrence h1⟩
  · exact oasYamlScanAux_occurrence h2

theorem oasJsonAt_occurrence {s : Chars} (h : oasJsonAt s = true) :
    prefixOf (chars "openapi") (s.drop 1) = true := by
  rw [oasJsonAt] at h
  by_cases hp : prefixOf (chars "\"openapi\"") s = true
  · have h8 : prefixOf (chars "\"openapi") s = true := prefixOf_trans (by decide) hp
    have : chars "\"openapi" = '"' :: chars "openapi" := by decide
    rw [this] at h8
    exact prefixOf_cons_drop h8
  · simp [hp] at h

theorem oasJsonTest_occurrence :
    ∀ {s : Chars}, oasJsonTest s = true →
      ∃ j, prefixOf (chars "openapi") (s.drop j) = true := by
  intro s
  induction s with
  | nil => intro h; simp [oasJsonTest] at h
  | cons c rest ih =>
    intro h
    rw [oasJsonTest] at h
    simp only [Bool.or_eq_true] at h
    rcases h with h1 | h2
    · exact ⟨1, oasJsonAt_occurrence h1⟩
    · obtain ⟨j, hj⟩ := ih h2
      exact ⟨j + 1, by simpa using hj⟩

theorem isOpenAPIDocument_false_of_no_openapi {doc : TextDocumentModel}
    (h : indexOfC doc.text (chars "openapi") = none) :
    isOpenAPIDocument doc = false := by
  have hy : oasYamlTest doc.text = false := by
    cases hv : oasYamlTest doc.text
    · rfl
    · obtain ⟨j, hj⟩ := oasYamlTest_occurrence hv
      simp [indexOfC_none h j] at hj
  have hj : oasJsonTest doc.text = false := by
    cases hv : oasJsonTest doc.text
    · rfl
    · obtain ⟨j, hj⟩ := oasJsonTest_occurrence hv
      simp [indexOfC_none h j] at hj
  rw [isOpenAPIDocument]
  simp only [hy, hj, Bool.or_self]
  split
  · split
    · rfl
    · rfl
  · rfl

/-- Claim C9: for a document whose content nowhere contains the substring
`openapi` (in particular, no `openapi`/`swagger` signature), the first
action of `validateDocument` is publishing an empty diagnostic list — for
every client/config/cache/parser state — and it never starts a network
evaluation. -/
theorem validate_non_openapi_publishes_empty (hasClient : Bool)
    (organization project : Option Chars)
    (cacheLookup : Chars → Option (List DiagnosticM)) (parseOk : Chars → Bool)
    (doc : TextDocumentModel)
    (h : indexOfC doc.text (chars "openapi") = none) :
    validateAction hasClient organization project cacheLookup parseOk doc = .publishEmpty
    ∧ ∀ t, validateAction hasClient organization project cacheLookup parseOk doc
        ≠ .startEvaluation t := by
  have hfalse := isOpenAPIDocument_false_of_no_openapi h
  constructor
  · rw [validateAction, if_pos (by simp [hfalse])]
  · intro t
    rw [validateAction, if_pos (by simp [hfalse])]
    intro hcontra
    cases hcontra

/-- Witness for claim C9's theorem on a concrete YAML document with no
OpenAPI signature. -/
theorem validate_non_openapi_publishes_empty_witness :
    validateAction true (some (chars "org")) (some (chars "proj"))
      (fun _ => none) (fun _ => true) docC9 = .publishEmpty := by
  exact (validate_non_openapi_publishes_empty true (some (chars "org")) (some (chars "proj"))
      (fun _ => none) (fun _ => true) docC9 (by decide)).1

-- =========================================================================
-- Claim C6 (operation_id key resolution)
-- =========================================================================

/-- Claim C6: for an `operation_id` key carrying `listPets`, whenever the
unquoted spelling `operationId: listPets` occurs in the document (the first
pattern searched; `indexOfC` gives the first occurrence in document order),
resolution returns exactly the 21-character span of that first occurrence;
on the round-trip scenario text it is the span of line 3, columns 6–27. -/
theorem operationId_resolution (content : Chars) (i : Nat) :
    (indexOfC content (chars "operationId: listPets") = some i →
      findViolationRange
          { violation_key_type := .operation_id, operation_id := some (chars "listPets") }
          content none
        = indexToRange i 21 (splitNl content))
    ∧ findViolationRange
        { violation_key_type := .operation_id, operation_id := some (chars "listPets") }
        (chars "paths:\n  /pets:\n    get:\n      operationId: listPets\n") none
      = ⟨⟨3, 6⟩, ⟨3, 27⟩⟩ := by
  constructor
  · intro h
    have hpat : chars "operationId: " ++ chars "listPets" = chars "operationId: listPets" := by
      decide
    have hfp : firstPatternHit content (opIdPats (chars "listPets"))
        = some (chars "operationId: listPets", i) := by
      rw [opIdPats, hpat, firstPatternHit, h]
    have hidx : violationIdx
        { violation_key_type := .operation_id, operation_id := some (chars "listPets") }
        content none = some (i, 21) := by
      unfold violationIdx findOperationIdRangeIdx
      dsimp only
      rw [show jsStr (some (chars "listPets")) = some (chars "listPets") from rfl]
      dsimp only
      rw [hfp]
      rfl
    unfold findViolationRange
    rw [hidx]
  · decide

/-- Witness for claim C6's theorem: the scenario text itself contains the
pattern at index 30, and resolution returns the corresponding range. -/
theorem operationId_resolution_witness :
    indexOfC (chars "paths:\n  /pets:\n    get:\n      operationId: listPets\n")
        (chars "operationId: listPets") = some 31
    ∧ findViolationRange
        { violation_key_type := .operation_id, operation_id := some (chars "listPets") }
        (chars "paths:\n  /pets:\n    get:\n      operationId: listPets\n") none
      = indexToRange 31 21
          (splitNl (chars "paths:\n  /pets:\n    get:\n      operationId: listPets\n")) :=
  ⟨by decide,
   (operationId_resolution
       (chars "paths:\n  /pets:\n    get:\n      operationId: listPets\n") 31).1 (by decide)⟩

-- =========================================================================
-- Claim C7 (total resolution with first-line default)
-- =========================================================================

/-- Claim C7: `findViolationRange` is a total function (the embedding of a
`try`/`catch` that can never propagate an error), and whenever no search
strategy produces a location — always for `system` keys, and whenever the
variant dispatch yields nothing — the result is the default first-line range
`{start: {0, 0}, end: {0, length of the first line}}`. -/
theorem findViolationRange_total_default (key : ViolationKey) (content : Chars)
    (message : Option Chars)
    (h : key.violation_key_type = .system ∨ violationIdx key content message = none) :
    findViolationRange key content message
      = ⟨⟨0, 0⟩, ⟨0, (content.takeWhile fun ch => !(ch == '\n')).length⟩⟩ := by
  have hidx : violationIdx key content message = none := by
    rcases h with hsys | hnone
    · unfold violationIdx
      rw [hsys]
    · exact hnone
  unfold findViolationRange
  rw [hidx]
  dsimp only
  rw [splitNl_head content]

/-- Witness for claim C7's theorem: a `system` key on a concrete two-line
document resolves to the first-line default range. -/
theorem findViolationRange_total_default_witness :
    findViolationRange { violation_key_type := .system } (chars "hello: world\nbye") none
      = ⟨⟨0, 0⟩, ⟨0, ((chars "hello: world\nbye").takeWhile fun ch => !(ch == '\n')).length⟩⟩ :=
  findViolationRange_total_default { violation_key_type := .system }
    (chars "hello: world\nbye") none (Or.inl rfl)

-- =========================================================================
-- Claim C2 (path search restricted to the paths section)
-- =========================================================================

theorem findSome?_some_exists {α β : Type} {f : α → Option β} :
    ∀ {l : List α} {b : β}, l.findSome? f = some b → ∃ a ∈ l, f a = some b := by
  intro l
  induction l with
  | nil => intro b h; simp [List.findSome?] at h
  | cons a rest ih =>
    intro b h
    rw [List.findSome?_cons] at h
    cases hf : f a with
    | some v =>
      rw [hf] at h
      cases h
      exact ⟨a, List.mem_cons_self a rest, hf⟩
    | none =>
      rw [hf] at h
      obtain ⟨x, hx, hfx⟩ := ih h
      exact ⟨x, List.mem_cons_of_mem a hx, hfx⟩

theorem pathsSectionBounds_le {content : Chars} {ps pe : Nat}
    (h : pathsSectionBounds content = some (ps, pe)) : ps ≤ pe := by
  unfold pathsSectionBounds at h
  dsimp only at h
  cases hym : yamlPathsMatched content with
  | some m0 =>
    rw [hym] at h
    dsimp only at h
    cases hidx : indexOfC content m0 with
    | none => rw [hidx] at h; simp at h
    | some pi =>
      rw [hidx] at h
      dsimp only at h
      have hbound := (indexOfC_some_bound hidx).1
      simp only [Option.some.injEq, Prod.mk.injEq] at h
      obtain ⟨h1, h2⟩ := h
      subst h1
      cases hnext : nextSectionIdx (content.drop pi) with
      | some j =>
        rw [hnext] at h2
        subst h2
        by_cases hz : j = 0 <;> simp [hz]
      | none =>
        rw [hnext] at h2
        dsimp only at h2
        subst h2
        omega
  | none =>
    rw [hym] at h
    by_cases hjt : jsonPathsTest content = true
    · rw [if_pos hjt] at h
      cases hidx : indexOfC content (chars "\"paths\"") with
      | none => rw [hidx] at h; simp at h
      | some pi =>
        rw [hidx] at h
        dsimp only at h
        have hbound := (indexOfC_some_bound hidx).1
        simp only [Option.some.injEq, Prod.mk.injEq] at h
        obtain ⟨h1, h2⟩ := h
        subst h1
        cases hnext : nextSectionIdx (content.drop pi) with
        | some j =>
          rw [hnext] at h2
          subst h2
          by_cases hz : j = 0 <;> simp [hz]
        | none =>
          rw [hnext] at h2
          dsimp only at h2
          subst h2
          omega
    · rw [if_neg hjt] at h
      simp at h

theorem firstPatternHit_bound {sect pat : Chars} {pats : List Chars} {ri : Nat}
    (h : firstPatternHit sect pats = some (pat, ri)) :
    ri + pat.length ≤ sect.length :=
  (indexOfC_some_bound (firstPatternHit_some h)).1

theorem exactPatHit_bounds {ps : Nat} {sect p : Chars} {i len : Nat}
    (h : exactPatHit ps sect p = some (i, len)) :
    ps ≤ i ∧ i ≤ ps + sect.length := by
  unfold exactPatHit at h
  cases hfp : firstPatternHit sect (exactPats p) with
  | none => rw [hfp] at h; simp at h
  | some pr =>
    obtain ⟨pat, ri⟩ := pr
    rw [hfp] at h
    dsimp only at h
    have hb := firstPatternHit_bound hfp
    by_cases hh : pat.head? = some '\n'
    · rw [if_pos hh] at h
      have hlen : 0 < pat.length := by
        cases pat
        · simp at hh
        · simp
      simp only [Option.some.injEq, Prod.mk.injEq] at h
      obtain ⟨h1, _⟩ := h
      omega
    · rw [if_neg hh] at h
      simp only [Option.some.injEq, Prod.mk.injEq] at h
      obtain ⟨h1, _⟩ := h
      omega

theorem underscoreMatchAt_ne_nil {s m0 : Chars} {k : Nat}
    (h : underscoreMatchAt s = some (m0, k)) : 0 < m0.length := by
  match s with
  | [] => simp [underscoreMatchAt] at h
  | c :: rest =>
    rw [underscoreMatchAt] at h
    by_cases hc : c = '\n'
    · rw [if_pos hc] at h
      dsimp only at h
      by_cases hw : (rest.takeWhile isWsC).length = 0
      · rw [if_pos hw] at h; simp at h
      · rw [if_neg hw] at h
        cases hdrop : rest.drop (rest.takeWhile isWsC).length with
        | nil => rw [hdrop] at h; simp at h
        | cons d r =>
          rw [hdrop] at h
          dsimp only at h
          by_cases hd : d = '/'
          · rw [if_pos hd] at h
            by_cases hu : ((r.takeWhile isPathSegChar).contains '_') = true
            · rw [if_pos hu] at h
              by_cases hhd : (r.drop (r.takeWhile isPathSegChar).length).head? = some ':'
              · rw [if_pos hhd] at h
                simp only [Option.some.injEq, Prod.mk.injEq] at h
                obtain ⟨h1, _⟩ := h
                subst h1
                simp
              · rw [if_neg hhd] at h; simp at h
            · rw [if_neg hu] at h; simp at h
          · rw [if_neg hd] at h; simp at h
    · rw [if_neg hc] at h; simp at h

theorem underscoreScan_ne_nil :
    ∀ {s m0 : Chars} {k : Nat}, underscoreScan s = some (m0, k) → 0 < m0.length := by
  intro s
  induction s with
  | nil => intro m0 k h; simp [underscoreScan] at h
  | cons c rest ih =>
    intro m0 k h
    rw [underscoreScan] at h
    cases hm : underscoreMatchAt (c :: rest) with
    | some pr =>
      obtain ⟨m, l⟩ := pr
      rw [hm] at h
      cases h
      exact underscoreMatchAt_ne_nil hm
    | none =>
      rw [hm] at h
      exact ih h

theorem underscoreHitIdx_bounds {ps : Nat} {sect : Chars} {message : Option Chars}
    {i len : Nat} (h : underscoreHitIdx ps sect message = some (i, len)) :
    ps ≤ i ∧ i ≤ ps + sect.length := by
  unfold underscoreHitIdx at h
  by_cases hm : msgUnderscore message = true
  · rw [if_pos hm] at h
    cases hu : underscoreIdx sect with
    | none => rw [hu] at h; simp at h
    | some pr =>
      obtain ⟨ri, m1len⟩ := pr
      rw [hu] at h
      dsimp only at h
      simp only [Option.some.injEq, Prod.mk.injEq] at h
      obtain ⟨h1, _⟩ := h
      unfold underscoreIdx at hu
      cases hs : underscoreScan sect with
      | none => rw [hs] at hu; simp at hu
      | some pr2 =>
        obtain ⟨m0, k⟩ := pr2
        rw [hs] at hu
        dsimp only at hu
        cases hidx : indexOfC sect m0 with
        | none => rw [hidx] at hu; simp at hu
        | some ri' =>
          rw [hidx] at hu
          simp only [Option.some.injEq, Prod.mk.injEq] at hu
          obtain ⟨h2, _⟩ := hu
          subst h2
          have hb := (indexOfC_some_bound hidx).1
          have hne := underscoreScan_ne_nil hs
          omega
  · rw [if_neg hm] at h
    simp at h

theorem segMatchScanAux_bound {seg : Chars} {aq : Bool} :
    ∀ {s : Chars} {j0 j len : Nat}, segMatchScanAux seg aq s j0 = some (j, len) →
      j0 ≤ j ∧ j - j0 < s.length := by
  intro s
  induction s with
  | nil => intro j0 j len h; simp [segMatchScanAux] at h
  | cons c rest ih =>
    intro j0 j len h
    rw [segMatchScanAux] at h
    cases hm : segMatchAt seg aq (c :: rest) with
    | some l =>
      rw [hm] at h
      simp only [Option.some.injEq, Prod.mk.injEq] at h
      obtain ⟨h1, _⟩ := h
      subst h1
      simp
    | none =>
      rw [hm] at h
      obtain ⟨h1, h2⟩ := ih h
      simp only [List.length_cons]
      omega

theorem segMatchScan_bound {seg : Chars} {aq : Bool} {s : Chars} {j len : Nat}
    (h : segMatchScan seg aq s = some (j, len)) : j < s.length := by
  have h0 : segMatchScanAux seg aq s 0 = some (j, len) := h
  have := segMatchScanAux_bound h0
  omega

theorem segHitIdx_bounds {ps : Nat} {sect seg : Chars} {i len : Nat}
    (h : segHitIdx ps sect seg = some (i, len)) : ps ≤ i ∧ i ≤ ps + sect.length := by
  unfold segHitIdx at h
  by_cases hb : seg.head? = some '{'
  · rw [if_pos hb] at h; simp at h
  · rw [if_neg hb] at h
    cases h1 : segMatchScan seg true sect with
    | some pr =>
      obtain ⟨j, l⟩ := pr
      rw [h1] at h
      dsimp only at h
      simp only [Option.some.injEq, Prod.mk.injEq] at h
      obtain ⟨hi, _⟩ := h
      have := segMatchScan_bound h1
      omega
    | none =>
      rw [h1] at h
      cases h2 : segMatchScan seg false sect with
      | some pr =>
        obtain ⟨j, l⟩ := pr
        rw [h2] at h
        dsimp only at h
        simp only [Option.some.injEq, Prod.mk.injEq] at h
        obtain ⟨hi, _⟩ := h
        have := segMatchScan_bound h2
        omega
      | none => rw [h2] at h; simp at h

theorem slice_length_le (s : Chars) (a b : Nat) : (slice s a b).length ≤ b - a := by
  rw [slice, List.length_take]
  omega

/-- Claim C2: every index produced by `findPathRange` lies inside the span
`[pathsIndex, pathsEndIndex]` of the top-level `paths` section (and no range
is produced at all when that section is absent); on the scenario text — with
a `/pets` occurrence inside `components:` (line 4) and `/pets/123:` under
`paths:` (line 6) and the key `/pets/{petId}` not present verbatim — the
segment fallback resolves to the occurrence inside the paths section, whose
bounds are characters 86–115, giving the line-6 range, never the
`components:` occurrence. -/
theorem path_search_restricted_to_paths_section
    (path : Option Chars) (content : Chars) (message : Option Chars) (ps pe i len : Nat) :
    (pathsSectionBounds content = some (ps, pe) →
      findPathRangeIdx path content message = some (i, len) →
      ps ≤ i ∧ i ≤ pe)
    ∧ (pathsSectionBounds content = none →
        findPathRangeIdx path content message = none)
    ∧ pathsSectionBounds textC2 = some (86, 115)
    ∧ findViolationRange petsKeyC2 textC2 none = ⟨⟨6, 0⟩, ⟨6, 8⟩⟩ := by
  refine ⟨?_, ?_, by decide, by decide⟩
  · intro hb h
    have hple : ps ≤ pe := pathsSectionBounds_le hb
    have hsect : (slice content ps pe).length ≤ pe - ps := slice_length_le content ps pe
    unfold findPathRangeIdx at h
    rw [hb] at h
    dsimp only at h
    cases hjs : jsStr path with
    | none =>
      rw [hjs] at h
      have := underscoreHitIdx_bounds h
      omega
    | some p =>
      rw [hjs] at h
      dsimp only at h
      cases hex : exactPatHit ps (slice content ps pe) p with
      | some pr =>
        obtain ⟨a, b⟩ := pr
        rw [hex] at h
        simp only [Option.some.injEq, Prod.mk.injEq] at h
        obtain ⟨h1, _⟩ := h
        subst h1
        have := exactPatHit_bounds hex
        omega
      | none =>
        rw [hex] at h
        cases hun : underscoreHitIdx ps (slice content ps pe) message with
        | some pr =>
          obtain ⟨a, b⟩ := pr
          rw [hun] at h
          simp only [Option.some.injEq, Prod.mk.injEq] at h
          obtain ⟨h1, _⟩ := h
          subst h1
          have := underscoreHitIdx_bounds hun
          omega
        | none =>
          rw [hun] at h
          cases hfs : ((splitOnChar '/' p).filter fun s => !s.isEmpty).findSome?
              (segHitIdx ps (slice content ps pe)) with
          | some pr =>
            obtain ⟨a, b⟩ := pr
            rw [hfs] at h
            simp only [Option.some.injEq, Prod.mk.injEq] at h
            obtain ⟨h1, _⟩ := h
            subst h1
            obtain ⟨seg, _, hseg⟩ := findSome?_some_exists hfs
            have := segHitIdx_bounds hseg
            omega
          | none =>
            rw [hfs] at h
            simp at h
  · intro hb
    unfold findPathRangeIdx
    rw [hb]

/-- Witness for claim C2's theorem: the scenario resolution index 93 lies
inside the paths-section span 86–115. -/
theorem path_search_restricted_to_paths_section_witness :
    pathsSectionBounds textC2 = some (86, 115)
    ∧ findPathRangeIdx (some (chars "/pets/{petId}")) textC2 none = some (93, 8)
    ∧ 86 ≤ 93 ∧ 93 ≤ 115 :=
  ⟨by decide, by decide,
   (path_search_restricted_to_paths_section (some (chars "/pets/{petId}")) textC2 none
      86 115 93 8).1 (by decide) (by decide)⟩

-- =========================================================================
-- Claim C1 (single-flight and stale-result discarding)
-- =========================================================================

/-- Claim C1 (amended): `validateDocument` has no single-flight guard and no
staleness check.  Whenever its guard chain reaches the evaluate branch
(OpenAPI signature present, client and project configured, cache miss,
successful parse — expressed as `validateAction` returning
`startEvaluation`), a trigger starts a new network evaluation regardless of
how many are already in flight for the document; and a completing evaluation
always publishes its diagnostics — computed against the document text at
completion time, not against the text captured when the evaluation started
(which only keys the cache entry). -/
theorem orchestration_always_publishes (cfg : OrchConfig) (s : OrchState) (i : Nat)
    (captured : Chars) (vs : List ViolationKV) :
    (s.inFlight.get? i = some captured →
      (orchStep cfg s (.complete i vs)).published
        = violationsToDiagnostics vs s.doc.text cfg.includeInfo :: s.published
      ∧ (orchStep cfg s (.complete i vs)).cacheEntries
        = (captured, violationsToDiagnostics vs s.doc.text cfg.includeInfo) :: s.cacheEntries)
    ∧ (validateAction cfg.hasClient cfg.organization cfg.project
          (fun t => lookupDiag t s.cacheEntries) cfg.parseOk s.doc
          = .startEvaluation s.doc.text →
        (orchStep cfg s .trigger).inFlight = s.inFlight ++ [s.doc.text]) := by
  constructor
  · intro h
    rw [orchStep, h]
    exact ⟨rfl, rfl⟩
  · intro h
    rw [orchStep, h]

/-- Witness for claim C1's amended theorem on a concrete guard-passing
document (YAML language id, `openapi: 3.0.0` signature, configured client
and project, empty cache, successful parse), with one pending evaluation for
the completion part. -/
theorem orchestration_always_publishes_witness :
    (orchStep orchCfg ⟨orchDoc0, [orchT0], [], []⟩ (.complete 0 orchVs)).published
      = violationsToDiagnostics orchVs orchT0 false :: []
    ∧ validateAction orchCfg.hasClient orchCfg.organization orchCfg.project
        (fun t => lookupDiag t orchS0.cacheEntries) orchCfg.parseOk orchS0.doc
        = .startEvaluation orchS0.doc.text
    ∧ (orchStep orchCfg orchS0 .trigger).inFlight = [] ++ [orchT0] :=
  ⟨((orchestration_always_publishes orchCfg ⟨orchDoc0, [orchT0], [], []⟩ 0 orchT0 orchVs).1
      (by decide)).1,
   by decide,
   (orchestration_always_publishes orchCfg orchS0 0 orchT0 orchVs).2 (by decide)⟩

/-- Claim C1 as frozen is false on the code, at a document that passes every
guard of `validateDocument` (YAML language id, `openapi: 3.0.0` signature,
client and project configured, cache miss, successful parse — the first
conjunct records that the guard chain reaches the evaluate branch): two
open/save triggers while the first evaluation is awaiting the network leave
two evaluations in flight for the same document; and after an edit changes
the text, the completing evaluation still publishes (nothing is discarded),
with diagnostics computed from the edited text rather than the text captured
at initiation. -/
theorem validateDocument_no_single_flight_counterexample :
    validateAction orchCfg.hasClient orchCfg.organization orchCfg.project
        (fun t => lookupDiag t orchS0.cacheEntries) orchCfg.parseOk orchS0.doc
      = .startEvaluation orchT0
    ∧ (orchRun orchCfg orchS0 [.trigger, .trigger]).inFlight.length = 2
    ∧ (orchRun orchCfg orchS0
        [.trigger, .trigger, .edit orchT1, .complete 0 orchVs]).published.head?
        = some (violationsToDiagnostics orchVs orchT1 false)
    ∧ violationsToDiagnostics orchVs orchT1 false ≠ violationsToDiagnostics orchVs orchT0 false
    ∧ orchT0 ≠ orchT1 := by
  refine ⟨by decide, by decide, by decide, by decide, by decide⟩

end RestLens
